import Mathlib

/-!
Verification of the lifting-algorithm family of
`src/sage/modular/local_comp/liftings.py`: lifting matrices known modulo
coprime moduli to integer matrices of exact determinant 1 (or determinant p
for the uniformiser), together with the recursive `SL_n` lift.

The functions `crt`, `inverse_mod` (from `sage.arith`), `lift_to_sl2z`
(from `sage.modular.modsym.p1list`) and `smith_form` (from `sage.matrix`)
are external primitives whose sources are not part of the embedded module;
they are modelled from the specification.  All model outputs were checked
against every doctest of `liftings.py`:
`lift_to_gamma1([10,11,3,11],19,5) = [371,68,60,11]`,
`lift_matrix_to_sl2z([10,11,3,11],19) = [29,106,3,11]`,
`lift_gen_to_gamma1(9,8) = [441,62,64,9]`,
`lift_uniformiser_odd(3,2,11) = [432,377,165,144]`,
`lift_ramified([2,2,3,2],3,1,1) = [5,8,3,5]`,
`lift_ramified([8,2,12,2],3,2,23) = [323,110,-133584,-45493]`,
and the `m = 1` / error doctests; all reproduce exactly.
-/

namespace Liftings

/-- Structural extended Euclid.  `xgcdAux fuel r0 s0 t0 r1 s1 t1` maintains the
Bezout rows `(r0, s0, t0)` and `(r1, s1, t1)`; fuel-based so that the kernel
can evaluate it. -/
def xgcdAux : ℕ → ℤ → ℤ → ℤ → ℤ → ℤ → ℤ → ℤ × ℤ × ℤ
  | 0, r0, s0, t0, _, _, _ => (r0, s0, t0)
  | (fuel + 1), r0, s0, t0, r1, s1, t1 =>
    if r1 = 0 then (r0, s0, t0)
    else xgcdAux fuel r1 s1 t1 (r0 % r1) (s0 - r0 / r1 * s1) (t0 - r0 / r1 * t1)

/-- Extended Euclid: for `0 ≤ a`, `0 ≤ b` it returns `(g, s, t)` with
`s * a + t * b = g` and `g = gcd a b`, matching Sage's `xgcd` on such inputs. -/
def xgcd (a b : ℤ) : ℤ × ℤ × ℤ :=
  xgcdAux (b.natAbs + 1) a 1 0 b 0 1

/-- Modelled from the spec: the external CRT primitive (`sage.arith.all.crt`),
"exact-integer CRT combination of two residues under given coprime moduli".
Returns the canonical representative in `[0, m*n)`, as Sage does for positive
moduli (checked against all doctests of `liftings.py`). -/
def crt (a b m n : ℤ) : ℤ :=
  (a * (xgcd m n).2.2 * n + b * (xgcd m n).2.1 * m) % (m * n)

/-- Modelled from the spec: the external modular-inverse primitive
(`sage.arith.all.inverse_mod`), canonical representative in `[0, m)`. -/
def inverse_mod (a m : ℤ) : ℤ :=
  (xgcd (a % m) m).2.1 % m

/-- Bezout completion of a coprime bottom row `(c, d)` to a matrix
`[[z2, -z1], [c, d]]` of determinant `z1*c + z2*d = 1`. -/
def bezRow (c d : ℤ) : ℤ × ℤ × ℤ × ℤ :=
  ((xgcd c d).2.2, -(xgcd c d).2.1, c, d)

/-- Modelled from the spec: the branch of `lift_to_sl2z` for a bottom row with
`gcd(c1, d1) ≠ 1`: shift `d1` by the least positive multiple `t * N` making
the row coprime (such `t ≤ |c1| + 1` exists whenever `gcd(c1, d1, N) = 1`),
then complete by Bezout. -/
def sl2zShift (c1 d1 N : ℤ) : ℤ × ℤ × ℤ × ℤ :=
  match (List.range' 1 (c1.natAbs + 1)).find? (fun (t : ℕ) => Int.gcd c1 (d1 + (t : ℤ) * N) == 1) with
  | some t => bezRow c1 (d1 + (t : ℤ) * N)
  | none => (1, 0, 0, 1)

/-- Modelled from the spec: the external elementary lifting primitive
`sage.modular.modsym.p1list.lift_to_sl2z` ("a base 2×2 lift of
bottom-row-prescribed matrices (continued-fraction style)").  Given `(c, d, N)`
with `gcd(c, d, N) = 1` it produces `(a, b, c', d')` with `a*d' - b*c' = 1`
and `(c', d') ≡ (c, d) (mod N)`; zero entries of the bottom row are first
shifted by `N`.  Reproduces the published values of every doctest of
`liftings.py` that exercises it. -/
def lift_to_sl2z (c d N : ℤ) : ℤ × ℤ × ℤ × ℤ :=
  if Int.gcd c d = 1 then
    bezRow c d
  else
    sl2zShift (if c = 0 then c + N else c) (if d = 0 then d + N else d) N

/-- Embedding of `lift_to_gamma1(g, m, n)` (liftings.py lines 60-70): the
`m = 1` convention, the determinant-residue check raising `ValueError`
(modelled by `Except.error` carrying the exact message), the CRT combination
of the bottom row, the elementary lift, and the top-row correction. -/
def lift_to_gamma1 (g : List ℤ) (m n : ℤ) : Except String (List ℤ) :=
  if m = 1 then .ok [1, 0, 0, 1]
  else match g with
  | [a, b, c, d] =>
    let det := (a * d - b * c) % m
    if det ≠ 1 then
      .error ("Determinant is " ++ toString det ++ " mod " ++ toString m ++ ", should be 1")
    else
      let c2 := crt c 0 m n
      let d2 := crt d 1 m n
      let (a3, b3, c3, d3) := lift_to_sl2z c2 d2 (m * n)
      let r := (a3 * b - b3 * a) % m
      .ok [a3 + r * c3, b3 + r * d3, c3, d3]
  | _ => .error "expected a list of four entries"

/-- Embedding of `lift_matrix_to_sl2z(A, N)` (liftings.py line 93). -/
def lift_matrix_to_sl2z (A : List ℤ) (N : ℤ) : Except String (List ℤ) :=
  lift_to_gamma1 A N 1

/-- Embedding of `lift_gen_to_gamma1(m, n)` (liftings.py line 120). -/
def lift_gen_to_gamma1 (m n : ℤ) : Except String (List ℤ) :=
  lift_to_gamma1 [0, -1, 1, 0] m n

/-- Embedding of `lift_uniformiser_odd(p, u, n)` (liftings.py lines 140-141):
the generator lift modulo `p^u` and `n` with entries `0` and `2` multiplied
by `p`. -/
def lift_uniformiser_odd (p : ℤ) (u : ℕ) (n : ℤ) : Except String (List ℤ) :=
  match lift_gen_to_gamma1 (p ^ u) n with
  | .ok [g0, g1, g2, g3] => .ok [p * g0, g1, p * g2, g3]
  | .ok _ => .error "unexpected shape"
  | .error e => .error e

/-- Embedding of `lift_ramified(g, p, u, n)` (liftings.py lines 165-170):
base lift modulo `p^u` and `n`, then subtract `p^u * r` times the top row
from the bottom row, where `r` is the CRT-corrected quotient. -/
def lift_ramified (g : List ℤ) (p : ℤ) (u : ℕ) (n : ℤ) : Except String (List ℤ) :=
  match g, lift_to_gamma1 g (p ^ u) n with
  | [_, _, g2, _], .ok [a, b, c, d] =>
    let r := crt ((c - g2) / p ^ u * inverse_mod a p) 0 p n
    .ok [a, b, c - p ^ u * r * a, d - p ^ u * r * b]
  | _, .error e => .error e
  | _, _ => .error "unexpected shape"

/-! ### Correctness of the extended Euclid -/

theorem gcd_shift (a b k : ℤ) : Int.gcd a (b + a * k) = Int.gcd a b := by
  apply Nat.dvd_antisymm
  · apply Int.natCast_dvd_natCast.mp
    refine Int.dvd_gcd Int.gcd_dvd_left ?_
    have h1 : (↑(Int.gcd a (b + a * k)) : ℤ) ∣ a := Int.gcd_dvd_left
    have h2 : (↑(Int.gcd a (b + a * k)) : ℤ) ∣ b + a * k := Int.gcd_dvd_right
    have := h2.sub (h1.mul_right k)
    simpa using this
  · apply Int.natCast_dvd_natCast.mp
    refine Int.dvd_gcd Int.gcd_dvd_left ?_
    exact (Int.gcd_dvd_right).add ((Int.gcd_dvd_left).mul_right k)

theorem gcd_eq_of_dvd_sub (n x y : ℤ) (h : n ∣ x - y) : Int.gcd n x = Int.gcd n y := by
  obtain ⟨k, hk⟩ := h
  have hx : x = y + n * k := by linarith
  rw [hx, gcd_shift]

theorem xgcdAux_spec (a b : ℤ) :
    ∀ (fuel : ℕ) (r0 s0 t0 r1 s1 t1 : ℤ), 0 ≤ r0 → 0 ≤ r1 → r1.natAbs < fuel →
    s0 * a + t0 * b = r0 → s1 * a + t1 * b = r1 →
    (xgcdAux fuel r0 s0 t0 r1 s1 t1).2.1 * a + (xgcdAux fuel r0 s0 t0 r1 s1 t1).2.2 * b
      = (xgcdAux fuel r0 s0 t0 r1 s1 t1).1
    ∧ (xgcdAux fuel r0 s0 t0 r1 s1 t1).1 = Int.gcd r0 r1 := by
  intro fuel
  induction fuel with
  | zero => intro _ _ _ r1 _ _ _ _ h; omega
  | succ fuel ih =>
    intro r0 s0 t0 r1 s1 t1 h0 h1 hlt hb0 hb1
    by_cases hz : r1 = 0
    · subst hz
      simp only [xgcdAux, if_true, eq_self_iff_true, if_pos]
      refine ⟨hb0, ?_⟩
      rw [Int.gcd_zero_right]
      exact (Int.natAbs_of_nonneg h0).symm
    · have hpos : 0 < r1 := lt_of_le_of_ne h1 (Ne.symm hz)
      have hmod_nonneg : 0 ≤ r0 % r1 := Int.emod_nonneg r0 hz
      have hmod_lt : r0 % r1 < r1 := Int.emod_lt_of_pos r0 hpos
      have hlt' : (r0 % r1).natAbs < fuel := by
        have h1' : r1.natAbs < fuel + 1 := hlt
        omega
      have hbez : (s0 - r0 / r1 * s1) * a + (t0 - r0 / r1 * t1) * b = r0 % r1 := by
        have := Int.emod_def r0 r1
        nlinarith [hb0, hb1]
      have := ih r1 s1 t1 (r0 % r1) (s0 - r0 / r1 * s1) (t0 - r0 / r1 * t1)
        h1 hmod_nonneg hlt' hb1 hbez
      simp only [xgcdAux, if_neg hz]
      refine ⟨this.1, ?_⟩
      rw [this.2]
      have heq : Int.gcd r1 (r0 % r1) = Int.gcd r0 r1 := by
        rw [Int.emod_def]
        have h2 : Int.gcd r1 (r0 + r1 * (-(r0 / r1))) = Int.gcd r1 r0 := gcd_shift r1 r0 _
        rw [mul_neg, ← sub_eq_add_neg] at h2
        rw [h2, Int.gcd_comm]
      rw [heq]

theorem xgcd_spec (a b : ℤ) (ha : 0 ≤ a) (hb : 0 ≤ b) :
    (xgcd a b).2.1 * a + (xgcd a b).2.2 * b = (xgcd a b).1
    ∧ (xgcd a b).1 = Int.gcd a b := by
  have := xgcdAux_spec a b (b.natAbs + 1) a 1 0 b 0 1 ha hb (by omega) (by ring) (by ring)
  exact this

theorem xgcd_bezout (a b : ℤ) (ha : 0 ≤ a) (hb : 0 ≤ b) (h : Int.gcd a b = 1) :
    (xgcd a b).2.1 * a + (xgcd a b).2.2 * b = 1 := by
  have hs := xgcd_spec a b ha hb
  rw [hs.1, hs.2, h]
  norm_num

/-! ### Correctness of the modelled CRT and modular inverse -/

theorem intGcd_natCast_eq (m : ℕ) (x : ℤ) : Int.gcd (m : ℤ) x = Nat.gcd m x.natAbs := by
  rw [Int.gcd_def, Int.natAbs_ofNat]

theorem crt_spec (a b m n : ℤ) (hm : 0 < m) (hn : 0 < n) (h : Int.gcd m n = 1) :
    crt a b m n ≡ a [ZMOD m] ∧ crt a b m n ≡ b [ZMOD n]
    ∧ 0 ≤ crt a b m n ∧ crt a b m n < m * n := by
  have hbez : (xgcd m n).2.1 * m + (xgcd m n).2.2 * n = 1 :=
    xgcd_bezout m n hm.le hn.le h
  set s := (xgcd m n).2.1 with hs
  set t := (xgcd m n).2.2 with ht
  set X := a * t * n + b * s * m with hX
  have hmn : 0 < m * n := mul_pos hm hn
  have hcrt : crt a b m n = X % (m * n) := rfl
  have h1 : crt a b m n ≡ X [ZMOD m * n] := by
    rw [Int.ModEq, hcrt]
    exact Int.emod_emod_of_dvd X dvd_rfl
  have h1m : crt a b m n ≡ X [ZMOD m] := h1.of_dvd ⟨n, rfl⟩
  have h1n : crt a b m n ≡ X [ZMOD n] := h1.of_dvd ⟨m, mul_comm m n⟩
  refine ⟨?_, ?_, ?_, ?_⟩
  · refine h1m.trans ?_
    rw [Int.modEq_iff_dvd]
    exact ⟨a * s - b * s, by linear_combination (-a) * hbez⟩
  · refine h1n.trans ?_
    rw [Int.modEq_iff_dvd]
    exact ⟨b * t - a * t, by linear_combination (-b) * hbez⟩
  · rw [hcrt]; exact Int.emod_nonneg X hmn.ne'
  · rw [hcrt]; exact Int.emod_lt_of_pos X hmn

theorem inverse_mod_spec (a m : ℤ) (hm : 0 < m) (h : Int.gcd a m = 1) :
    a * inverse_mod a m ≡ 1 [ZMOD m] := by
  have ha' : 0 ≤ a % m := Int.emod_nonneg a hm.ne'
  have hg : Int.gcd (a % m) m = 1 := by
    have : Int.gcd (a % m) m = Int.gcd a m := by
      rw [Int.gcd_comm, Int.gcd_comm a m]
      refine gcd_eq_of_dvd_sub m (a % m) a ?_
      rw [Int.emod_def]
      exact ⟨-(a / m), by ring⟩
    rw [this, h]
  have hbez : (xgcd (a % m) m).2.1 * (a % m) + (xgcd (a % m) m).2.2 * m = 1 :=
    xgcd_bezout _ m ha' hm.le hg
  set z := (xgcd (a % m) m).2.1 with hz
  have h1 : inverse_mod a m ≡ z [ZMOD m] := by
    rw [Int.ModEq]
    exact Int.emod_emod_of_dvd z dvd_rfl
  have h2 : a * inverse_mod a m ≡ a * z [ZMOD m] := h1.mul_left a
  refine h2.trans ?_
  have h3 : a * z ≡ (a % m) * z [ZMOD m] := by
    refine Int.ModEq.mul_right z ?_
    rw [Int.ModEq]
    exact (Int.emod_emod_of_dvd a dvd_rfl).symm
  refine h3.trans ?_
  rw [Int.modEq_iff_dvd]
  exact ⟨(xgcd (a % m) m).2.2, by linear_combination -hbez⟩

theorem inverse_mod_nonneg (a m : ℤ) (hm : 0 < m) :
    0 ≤ inverse_mod a m ∧ inverse_mod a m < m :=
  ⟨Int.emod_nonneg _ hm.ne', Int.emod_lt_of_pos _ hm⟩

/-! ### Existence of a coprime shift of the bottom row

For `gcd(c, d, N) = 1` and `c ≠ 0` there is a `t` with `gcd(c, d + t*N) = 1`;
this is what makes the searching branch of the modelled `lift_to_sl2z`
succeed. -/

theorem exists_coprime_shift :
    ∀ (m : ℕ), 0 < m → ∀ (d N : ℤ), Nat.gcd (Int.gcd (m : ℤ) d) N.natAbs = 1 →
    ∃ t : ℤ, Int.gcd (m : ℤ) (d + t * N) = 1 := by
  intro m
  induction m using Nat.strong_induction_on with
  | _ m ih =>
    intro hm d N htri
    by_cases h1 : m = 1
    · subst h1
      exact ⟨0, by simp [Int.gcd_def]⟩
    · have hp : m.minFac.Prime := Nat.minFac_prime h1
      set p := m.minFac with hpdef
      have hpm : p ∣ m := Nat.minFac_dvd m
      set k := m.factorization p with hk
      set m' := m / p ^ k with hm'def
      have hsplit : p ^ k * m' = m := Nat.ordProj_mul_ordCompl_eq_self m p
      have hm'pos : 0 < m' := Nat.ordCompl_pos p hm.ne'
      have hkpos : 0 < k := hp.factorization_pos_of_dvd hm.ne' hpm
      have hcoppm' : Nat.Coprime p m' := Nat.coprime_ordCompl hp hm.ne'
      have hpk2 : 2 ≤ p ^ k := by
        calc 2 = 2 ^ 1 := by norm_num
        _ ≤ p ^ 1 := by have := hp.two_le; exact Nat.pow_le_pow_left this 1
        _ ≤ p ^ k := Nat.pow_le_pow_right hp.pos hkpos
      have hm'lt : m' < m := by
        calc m' < 2 * m' := by omega
        _ ≤ p ^ k * m' := Nat.mul_le_mul_right _ hpk2
        _ = m := hsplit
      have hm'm : m' ∣ m := ⟨p ^ k, by rw [← hsplit]; ring⟩
      have htri' : Nat.gcd (Int.gcd (m' : ℤ) d) N.natAbs = 1 := by
        have hdvd : Int.gcd (m' : ℤ) d ∣ Int.gcd (m : ℤ) d := by
          rw [intGcd_natCast_eq, intGcd_natCast_eq]
          exact Nat.gcd_dvd_gcd_of_dvd_left _ hm'm
        have := Nat.gcd_dvd_gcd_of_dvd_left (N.natAbs) hdvd
        rw [htri] at this
        exact Nat.dvd_one.mp this
      obtain ⟨t', ht'⟩ := ih m' hm'lt hm'pos d N htri'
      have hs : ∃ s : ℤ, ¬ (p : ℤ) ∣ (d + s * N) := by
        by_cases hpd : (p : ℤ) ∣ d
        · refine ⟨1, fun hcon => ?_⟩
          have hpN : (p : ℤ) ∣ N := by
            have := hcon.sub hpd
            simpa using this
          have h1' : p ∣ Int.gcd (m : ℤ) d := by
            rw [intGcd_natCast_eq]
            refine Nat.dvd_gcd hpm ?_
            have := Int.natAbs_dvd_natAbs.mpr hpd
            simpa using this
          have h2' : p ∣ N.natAbs := by
            have := Int.natAbs_dvd_natAbs.mpr hpN
            simpa using this
          have : p ∣ 1 := htri ▸ Nat.dvd_gcd h1' h2'
          exact hp.one_lt.ne' (Nat.dvd_one.mp this)
        · exact ⟨0, by simpa using hpd⟩
      obtain ⟨s, hsnd⟩ := hs
      have hcop' : IsCoprime (m' : ℤ) ((p : ℤ) ^ k) := by
        rw [Int.isCoprime_iff_gcd_eq_one]
        have : ((p : ℤ) ^ k) = ((p ^ k : ℕ) : ℤ) := by push_cast; ring
        rw [this, Int.gcd_natCast_natCast]
        exact Nat.Coprime.pow_right k hcoppm'.symm
      obtain ⟨u, v, huv⟩ := hcop'
      refine ⟨t' * (v * (p : ℤ) ^ k) + s * (u * (m' : ℤ)), ?_⟩
      set t := t' * (v * (p : ℤ) ^ k) + s * (u * (m' : ℤ)) with htdef
      have hxm' : Int.gcd (m' : ℤ) (d + t * N) = 1 := by
        have hstep : Int.gcd (m' : ℤ) (d + t * N) = Int.gcd (m' : ℤ) (d + t' * N) := by
          refine gcd_eq_of_dvd_sub _ _ _ ?_
          refine ⟨u * (s - t') * N, ?_⟩
          have ht1 : t - t' = u * (m' : ℤ) * (s - t') := by
            rw [htdef]
            linear_combination t' * huv
          linear_combination N * ht1
        rw [hstep, ht']
      have hxp : ¬ (p : ℤ) ∣ (d + t * N) := by
        intro hcon
        apply hsnd
        have hdiff : (p : ℤ) ∣ (d + t * N) - (d + s * N) := by
          refine ⟨(p : ℤ) ^ (k - 1) * v * (t' - s) * N, ?_⟩
          have ht2 : t - s = v * (p : ℤ) ^ k * (t' - s) := by
            rw [htdef]
            linear_combination s * huv
          have hpk : (p : ℤ) ^ k = (p : ℤ) * (p : ℤ) ^ (k - 1) := by
            rw [← pow_succ']
            congr 1
            omega
          calc d + t * N - (d + s * N) = (t - s) * N := by ring
          _ = v * (p : ℤ) ^ k * (t' - s) * N := by rw [ht2]
          _ = (p : ℤ) * ((p : ℤ) ^ (k - 1) * v * (t' - s) * N) := by rw [hpk]; ring
        have h2 := hcon.sub hdiff
        have h3 : d + t * N - (d + t * N - (d + s * N)) = d + s * N := by ring
        rwa [h3] at h2
      have hcppart : Nat.Coprime (p ^ k) (d + t * N).natAbs := by
        refine Nat.Coprime.pow_left k ?_
        rw [hp.coprime_iff_not_dvd]
        intro hcon
        apply hxp
        have h' : ((p : ℤ)).natAbs ∣ (d + t * N).natAbs := by simpa using hcon
        exact Int.natAbs_dvd_natAbs.mp h'
      rw [intGcd_natCast_eq, ← hsplit]
      exact Nat.Coprime.mul hcppart (by rw [intGcd_natCast_eq] at hxm'; exact hxm')

theorem exists_mem_range'_coprime (c1 d1 N : ℤ) (hc : 0 < c1)
    (htri : Nat.gcd (Int.gcd c1 d1) N.natAbs = 1) :
    ∃ t : ℕ, t ∈ List.range' 1 (c1.natAbs + 1) ∧ Int.gcd c1 (d1 + (t : ℤ) * N) = 1 := by
  set m := c1.natAbs with hm
  have hmc : (m : ℤ) = c1 := Int.natAbs_of_nonneg hc.le
  have hmpos : 0 < m := Int.natAbs_pos.mpr hc.ne'
  obtain ⟨t, ht⟩ := exists_coprime_shift m hmpos d1 N (by rw [hmc]; exact htri)
  rw [hmc] at ht
  set t0 : ℤ := 1 + (t - 1) % (m : ℤ) with ht0
  have hmz : (m : ℤ) ≠ 0 := by exact_mod_cast hmpos.ne'
  have hmod0 : 0 ≤ (t - 1) % (m : ℤ) := Int.emod_nonneg (t - 1) hmz
  have hmod1 : (t - 1) % (m : ℤ) < (m : ℤ) := Int.emod_lt_of_pos (t - 1) (by exact_mod_cast hmpos)
  have ht0pos : 1 ≤ t0 := by omega
  have ht0le : t0 ≤ (m : ℤ) := by omega
  refine ⟨t0.toNat, ?_, ?_⟩
  · rw [List.mem_range'_1]
    omega
  · have hcast : ((t0.toNat : ℤ)) = t0 := Int.toNat_of_nonneg (by omega)
    rw [hcast]
    have hdiff : c1 ∣ (d1 + t0 * N) - (d1 + t * N) := by
      have hmd : t0 - t = -((m : ℤ) * ((t - 1) / (m : ℤ))) := by
        have := Int.emod_def (t - 1) (m : ℤ)
        omega
      refine ⟨-((t - 1) / (m : ℤ)) * N, ?_⟩
      rw [← hmc]
      linear_combination N * hmd
    rw [gcd_eq_of_dvd_sub c1 _ _ hdiff, ht]

theorem triGcd_dvd (x y N k l : ℤ) :
    Nat.gcd (Int.gcd (x + N * k) (y + N * l)) N.natAbs
      ∣ Nat.gcd (Int.gcd x y) N.natAbs := by
  set g := Nat.gcd (Int.gcd (x + N * k) (y + N * l)) N.natAbs with hg
  have hg1 : (g : ℤ) ∣ x + N * k := by
    have h1 : (g : ℤ) ∣ (Int.gcd (x + N * k) (y + N * l) : ℤ) :=
      Int.natCast_dvd_natCast.mpr (Nat.gcd_dvd_left _ _)
    exact h1.trans Int.gcd_dvd_left
  have hg2 : (g : ℤ) ∣ y + N * l := by
    have h1 : (g : ℤ) ∣ (Int.gcd (x + N * k) (y + N * l) : ℤ) :=
      Int.natCast_dvd_natCast.mpr (Nat.gcd_dvd_left _ _)
    exact h1.trans Int.gcd_dvd_right
  have hgN : (g : ℤ) ∣ N := by
    have h1 : (g : ℤ) ∣ (N.natAbs : ℤ) :=
      Int.natCast_dvd_natCast.mpr (Nat.gcd_dvd_right _ _)
    exact h1.trans (Int.natAbs_dvd.mpr dvd_rfl)
  have hx : (g : ℤ) ∣ x := by
    have := hg1.sub (hgN.mul_right k)
    simpa using this
  have hy : (g : ℤ) ∣ y := by
    have := hg2.sub (hgN.mul_right l)
    simpa using this
  refine Nat.dvd_gcd ?_ ?_
  · exact Int.natCast_dvd_natCast.mp (Int.dvd_gcd hx hy)
  · exact Int.natCast_dvd_natCast.mp (Int.dvd_natAbs.mpr hgN)

theorem triGcd_shift (x y N k l : ℤ) :
    Nat.gcd (Int.gcd (x + N * k) (y + N * l)) N.natAbs
      = Nat.gcd (Int.gcd x y) N.natAbs := by
  apply Nat.dvd_antisymm
  · exact triGcd_dvd x y N k l
  · have := triGcd_dvd (x + N * k) (y + N * l) N (-k) (-l)
    simpa using this

/-! ### Correctness of the modelled `lift_to_sl2z` -/

theorem sl2zShift_spec (c1 d1 N : ℤ) (hc : 0 < c1) (hd : 0 < d1) (hN : 1 ≤ N)
    (htri : Nat.gcd (Int.gcd c1 d1) N.natAbs = 1) :
    ∃ a b d2, sl2zShift c1 d1 N = (a, b, c1, d2) ∧ a * d2 - b * c1 = 1
    ∧ d2 ≡ d1 [ZMOD N] ∧ 0 < d2 := by
  obtain ⟨t, htmem, htgcd⟩ := exists_mem_range'_coprime c1 d1 N hc htri
  have hfind : ∃ t2, (List.range' 1 (c1.natAbs + 1)).find?
      (fun (t : ℕ) => Int.gcd c1 (d1 + (t : ℤ) * N) == 1) = some t2 := by
    rcases hcase : (List.range' 1 (c1.natAbs + 1)).find?
        (fun (t : ℕ) => Int.gcd c1 (d1 + (t : ℤ) * N) == 1) with _ | t2
    · exfalso
      have := List.find?_eq_none.mp hcase t htmem
      simp only [beq_iff_eq] at this
      exact this htgcd
    · exact ⟨t2, rfl⟩
  obtain ⟨t2, ht2⟩ := hfind
  have ht2gcd : Int.gcd c1 (d1 + (t2 : ℤ) * N) = 1 := by
    have := List.find?_some ht2
    simpa [beq_iff_eq] using this
  have ht2mem := List.mem_of_find?_eq_some ht2
  have ht2pos : 1 ≤ t2 := (List.mem_range'_1.mp ht2mem).1
  set d2 := d1 + (t2 : ℤ) * N with hd2
  have hd2pos : 0 < d2 := by
    have h1 : (1 : ℤ) ≤ (t2 : ℤ) := by exact_mod_cast ht2pos
    nlinarith
  have hbez : (xgcd c1 d2).2.1 * c1 + (xgcd c1 d2).2.2 * d2 = 1 :=
    xgcd_bezout c1 d2 hc.le hd2pos.le ht2gcd
  refine ⟨(xgcd c1 d2).2.2, -(xgcd c1 d2).2.1, d2, ?_, ?_, ?_, hd2pos⟩
  · unfold sl2zShift
    rw [ht2]
    rfl
  · linear_combination hbez
  · rw [Int.modEq_iff_dvd]
    exact ⟨-(t2 : ℤ), by ring⟩

theorem lift_to_sl2z_spec (c d N : ℤ) (hc : 0 ≤ c) (hd : 0 ≤ d) (hN : 1 ≤ N)
    (htri : Nat.gcd (Int.gcd c d) N.natAbs = 1) :
    ∃ a b c' d', lift_to_sl2z c d N = (a, b, c', d') ∧ a * d' - b * c' = 1
    ∧ c' ≡ c [ZMOD N] ∧ d' ≡ d [ZMOD N] := by
  by_cases hg : Int.gcd c d = 1
  · have hbez : (xgcd c d).2.1 * c + (xgcd c d).2.2 * d = 1 := xgcd_bezout c d hc hd hg
    refine ⟨(xgcd c d).2.2, -(xgcd c d).2.1, c, d, ?_, ?_, Int.ModEq.refl c, Int.ModEq.refl d⟩
    · unfold lift_to_sl2z
      rw [if_pos hg]
      rfl
    · linear_combination hbez
  · set c1 := if c = 0 then c + N else c with hc1
    set d1 := if d = 0 then d + N else d with hd1
    have hc1pos : 0 < c1 := by
      rw [hc1]
      split
      · omega
      · omega
    have hd1pos : 0 < d1 := by
      rw [hd1]
      split
      · omega
      · omega
    have htri1 : Nat.gcd (Int.gcd c1 d1) N.natAbs = 1 := by
      have h1 : c1 = c + N * (if c = 0 then 1 else 0) := by
        rw [hc1]; split <;> ring
      have h2 : d1 = d + N * (if d = 0 then 1 else 0) := by
        rw [hd1]; split <;> ring
      rw [h1, h2, triGcd_shift]
      exact htri
    obtain ⟨a, b, d2, heq, hdet, hmod, hd2pos⟩ :=
      sl2zShift_spec c1 d1 N hc1pos hd1pos hN htri1
    refine ⟨a, b, c1, d2, ?_, hdet, ?_, ?_⟩
    · unfold lift_to_sl2z
      rw [if_neg hg]
      exact heq
    · rw [Int.modEq_iff_dvd, hc1]
      split
      · exact ⟨-1, by ring⟩
      · exact ⟨0, by ring⟩
    · refine hmod.trans ?_
      rw [Int.modEq_iff_dvd, hd1]
      split
      · exact ⟨-1, by ring⟩
      · exact ⟨0, by ring⟩

/-! ### Correctness of the base lift `lift_to_gamma1` -/

theorem coprime_of_modEq_one (x n : ℤ) (h : x ≡ 1 [ZMOD n]) (K : ℕ)
    (hKx : (K : ℤ) ∣ x) (hKn : (K : ℤ) ∣ n) : K = 1 := by
  rw [Int.modEq_iff_dvd] at h
  have h1 : (K : ℤ) ∣ 1 - x := hKn.trans h
  have h2 : (K : ℤ) ∣ 1 := by
    have := h1.add hKx
    simpa using this
  exact_mod_cast Int.eq_one_of_dvd_one (by positivity) h2

theorem lift_to_gamma1_spec (a b c d m n : ℤ) (hm : 2 ≤ m) (hn : 1 ≤ n)
    (hmn : Int.gcd m n = 1) (hdet : (a * d - b * c) % m = 1) :
    ∃ A B C D, lift_to_gamma1 [a, b, c, d] m n = .ok [A, B, C, D]
    ∧ A * D - B * C = 1
    ∧ A ≡ a [ZMOD m] ∧ B ≡ b [ZMOD m] ∧ C ≡ c [ZMOD m] ∧ D ≡ d [ZMOD m]
    ∧ A ≡ 1 [ZMOD n] ∧ C ≡ 0 [ZMOD n] ∧ D ≡ 1 [ZMOD n] := by
  have hm0 : 0 < m := by omega
  have hn0 : 0 < n := hn
  have hm1 : m ≠ 1 := by omega
  set c2 := crt c 0 m n with hc2def
  set d2 := crt d 1 m n with hd2def
  obtain ⟨hc2m, hc2n, hc2nonneg, hc2lt⟩ := crt_spec c 0 m n hm0 hn0 hmn
  obtain ⟨hd2m, hd2n, hd2nonneg, hd2lt⟩ := crt_spec d 1 m n hm0 hn0 hmn
  have hmdet : a * d - b * c ≡ 1 [ZMOD m] := by
    rw [Int.ModEq, hdet]
    rw [Int.emod_eq_of_lt (by norm_num) (by omega)]
  set g := Int.gcd c2 d2 with hgdef
  have hgc2 : (g : ℤ) ∣ c2 := Int.gcd_dvd_left
  have hgd2 : (g : ℤ) ∣ d2 := Int.gcd_dvd_right
  have hcopn : Nat.Coprime g n.natAbs := by
    set K := Nat.gcd g n.natAbs with hK
    have hKd2 : (K : ℤ) ∣ d2 :=
      (Int.natCast_dvd_natCast.mpr (Nat.gcd_dvd_left _ _)).trans hgd2
    have hKn : (K : ℤ) ∣ n :=
      (Int.natCast_dvd_natCast.mpr (Nat.gcd_dvd_right _ _)).trans (Int.natAbs_dvd.mpr dvd_rfl)
    exact coprime_of_modEq_one d2 n hd2n K hKd2 hKn
  have hcopm : Nat.Coprime g m.natAbs := by
    set K := Nat.gcd g m.natAbs with hK
    have hKc2 : (K : ℤ) ∣ c2 :=
      (Int.natCast_dvd_natCast.mpr (Nat.gcd_dvd_left _ _)).trans hgc2
    have hKd2 : (K : ℤ) ∣ d2 :=
      (Int.natCast_dvd_natCast.mpr (Nat.gcd_dvd_left _ _)).trans hgd2
    have hKm : (K : ℤ) ∣ m :=
      (Int.natCast_dvd_natCast.mpr (Nat.gcd_dvd_right _ _)).trans (Int.natAbs_dvd.mpr dvd_rfl)
    have hKc : (K : ℤ) ∣ c := by
      have h1 : m ∣ c - c2 := Int.modEq_iff_dvd.mp hc2m
      have := (hKm.trans h1).add hKc2
      simpa using this
    have hKd : (K : ℤ) ∣ d := by
      have h1 : m ∣ d - d2 := Int.modEq_iff_dvd.mp hd2m
      have := (hKm.trans h1).add hKd2
      simpa using this
    have hKdet : (K : ℤ) ∣ a * d - b * c := ((hKd.mul_left a).sub (hKc.mul_left b))
    exact coprime_of_modEq_one (a * d - b * c) m hmdet K hKdet hKm
  have htri : Nat.gcd (Int.gcd c2 d2) ((m * n).natAbs) = 1 := by
    rw [Int.natAbs_mul]
    exact Nat.Coprime.mul_right hcopm hcopn
  have hmn1 : (1 : ℤ) ≤ m * n := by nlinarith
  obtain ⟨a3, b3, c3, d3, heq, hdet3, hc3, hd3⟩ :=
    lift_to_sl2z_spec c2 d2 (m * n) hc2nonneg hd2nonneg hmn1 htri
  have hdvdm : m ∣ m * n := ⟨n, rfl⟩
  have hdvdn : n ∣ m * n := ⟨m, mul_comm m n⟩
  have hc3m : c3 ≡ c [ZMOD m] := (hc3.of_dvd hdvdm).trans hc2m
  have hc3n : c3 ≡ 0 [ZMOD n] := (hc3.of_dvd hdvdn).trans hc2n
  have hd3m : d3 ≡ d [ZMOD m] := (hd3.of_dvd hdvdm).trans hd2m
  have hd3n : d3 ≡ 1 [ZMOD n] := (hd3.of_dvd hdvdn).trans hd2n
  set r := (a3 * b - b3 * a) % m with hrdef
  have hr : r ≡ a3 * b - b3 * a [ZMOD m] := by
    rw [Int.ModEq, hrdef]
    exact Int.emod_emod_of_dvd _ dvd_rfl
  have hkey : lift_to_gamma1 [a, b, c, d] m n = .ok [a3 + r * c3, b3 + r * d3, c3, d3] := by
    simp only [lift_to_gamma1, if_neg hm1, hdet, ne_eq, not_true_eq_false, if_false,
      ite_false]
    rw [← hc2def, ← hd2def, heq]
  have h6 : a3 * d - b3 * c ≡ a3 * d3 - b3 * c3 [ZMOD m] :=
    (hd3m.symm.mul_left a3).sub (hc3m.symm.mul_left b3)
  have hA : a3 + r * c3 ≡ a [ZMOD m] := by
    calc a3 + r * c3 ≡ a3 + (a3 * b - b3 * a) * c [ZMOD m] :=
          Int.ModEq.add_left a3 (hr.mul hc3m)
    _ = a3 * (1 + b * c) - (b3 * c) * a := by ring
    _ ≡ a3 * (a * d) - (b3 * c) * a [ZMOD m] := by
          refine Int.ModEq.sub ?_ (Int.ModEq.refl _)
          refine Int.ModEq.mul_left a3 ?_
          have h2 := hmdet.add_right (b * c)
          have h' : a * d - b * c + b * c = a * d := by ring
          rw [h'] at h2
          exact h2.symm
    _ = a * (a3 * d - b3 * c) := by ring
    _ ≡ a * (a3 * d3 - b3 * c3) [ZMOD m] := h6.mul_left a
    _ = a := by rw [hdet3]; ring
  have hB : b3 + r * d3 ≡ b [ZMOD m] := by
    calc b3 + r * d3 ≡ b3 + (a3 * b - b3 * a) * d [ZMOD m] :=
          Int.ModEq.add_left b3 (hr.mul hd3m)
    _ = b3 * (1 - a * d) + (a3 * d) * b := by ring
    _ ≡ b3 * (-(b * c)) + (a3 * d) * b [ZMOD m] := by
          refine Int.ModEq.add ?_ (Int.ModEq.refl _)
          refine Int.ModEq.mul_left b3 ?_
          have h1 : (1 : ℤ) - a * d ≡ (a * d - b * c) - a * d [ZMOD m] :=
            (hmdet.symm).sub (Int.ModEq.refl (a * d))
          have h' : a * d - b * c - a * d = -(b * c) := by ring
          rw [h'] at h1
          exact h1
    _ = b * (a3 * d - b3 * c) := by ring
    _ ≡ b * (a3 * d3 - b3 * c3) [ZMOD m] := h6.mul_left b
    _ = b := by rw [hdet3]; ring
  have hAn : a3 + r * c3 ≡ 1 [ZMOD n] := by
    calc a3 + r * c3 ≡ a3 + r * 0 [ZMOD n] := Int.ModEq.add_left a3 (hc3n.mul_left r)
    _ = a3 * 1 - b3 * 0 := by ring
    _ ≡ a3 * d3 - b3 * c3 [ZMOD n] := (hd3n.symm.mul_left a3).sub (hc3n.symm.mul_left b3)
    _ = 1 := hdet3
  have hDn : d3 ≡ 1 [ZMOD n] := hd3n
  refine ⟨a3 + r * c3, b3 + r * d3, c3, d3, hkey, ?_, hA, hB, hc3m, hd3m, hAn, hc3n, hDn⟩
  linear_combination hdet3

theorem lift_to_gamma1_isOk (a b c d m n : ℤ) (hm1 : m ≠ 1)
    (hdet : (a * d - b * c) % m = 1) :
    ∃ l, lift_to_gamma1 [a, b, c, d] m n = .ok l := by
  simp only [lift_to_gamma1, if_neg hm1, hdet, ne_eq, not_true_eq_false, if_false, ite_false]
  rcases hsplit : lift_to_sl2z (crt c 0 m n) (crt d 1 m n) (m * n) with ⟨x1, x2, x3, x4⟩
  exact ⟨_, rfl⟩

theorem lift_to_gamma1_error_of_det (a b c d m n : ℤ) (hm1 : m ≠ 1)
    (hdet : (a * d - b * c) % m ≠ 1) :
    lift_to_gamma1 [a, b, c, d] m n
      = .error ("Determinant is " ++ toString ((a * d - b * c) % m) ++ " mod "
          ++ toString m ++ ", should be 1") := by
  simp only [lift_to_gamma1, if_neg hm1]
  rw [if_pos hdet]

/-! ### Claim theorems for the base-lift family -/

/-- C1: for all integers `a, b, c, d` and coprime positive moduli `m ≥ 2`, `n`
with `a*d - b*c ≡ 1 (mod m)`, `lift_to_gamma1` returns four integers of exact
determinant 1 which are congruent to `(a, b, c, d)` entrywise mod `m` and to
the upper unitriangular pattern `(1, *, 0, 1)` mod `n`. -/
theorem claim_C1 (a b c d m n : ℤ) (hm : 2 ≤ m) (hn : 1 ≤ n)
    (hmn : Int.gcd m n = 1) (hdet : (a * d - b * c) % m = 1) :
    ∃ A B C D, lift_to_gamma1 [a, b, c, d] m n = .ok [A, B, C, D]
    ∧ A * D - B * C = 1
    ∧ A ≡ a [ZMOD m] ∧ B ≡ b [ZMOD m] ∧ C ≡ c [ZMOD m] ∧ D ≡ d [ZMOD m]
    ∧ A ≡ 1 [ZMOD n] ∧ C ≡ 0 [ZMOD n] ∧ D ≡ 1 [ZMOD n] :=
  lift_to_gamma1_spec a b c d m n hm hn hmn hdet

/-- Witness for C1 at the doctest input `([10, 11, 3, 11], 19, 5)`. -/
theorem claim_C1_witness :
    ∃ A B C D, lift_to_gamma1 [10, 11, 3, 11] 19 5 = .ok [A, B, C, D]
    ∧ A * D - B * C = 1
    ∧ A ≡ 10 [ZMOD 19] ∧ B ≡ 11 [ZMOD 19] ∧ C ≡ 3 [ZMOD 19] ∧ D ≡ 11 [ZMOD 19]
    ∧ A ≡ 1 [ZMOD 5] ∧ C ≡ 0 [ZMOD 5] ∧ D ≡ 1 [ZMOD 5] :=
  claim_C1 10 11 3 11 19 5 (by norm_num) (by norm_num) (by decide) (by decide)

/-- C4 counterexample: `lift_matrix_to_sl2z([10, 11, 3, 11], 19)` does not
return `(371, 68, 60, 11)` (that quadruple is the output of `lift_to_gamma1`
with secondary modulus 5, as in the repository's own doctest); it returns
`(29, 106, 3, 11)`. -/
theorem claim_C4_counterexample :
    lift_matrix_to_sl2z [10, 11, 3, 11] 19 ≠ .ok [371, 68, 60, 11] := by
  intro h
  rw [show lift_matrix_to_sl2z [10, 11, 3, 11] 19 = .ok [29, 106, 3, 11] from rfl] at h
  exact absurd (Except.ok.inj h) (by decide)

/-- C4 (amended): `lift_matrix_to_sl2z([10, 11, 3, 11], 19)` returns exactly
`(29, 106, 3, 11)`, which has determinant 1 and reduces to the input mod 19. -/
theorem claim_C4 :
    lift_matrix_to_sl2z [10, 11, 3, 11] 19 = .ok [29, 106, 3, 11]
    ∧ (29 : ℤ) * 11 - 106 * 3 = 1
    ∧ (29 : ℤ) % 19 = 10 % 19 ∧ (106 : ℤ) % 19 = 11 % 19
    ∧ (3 : ℤ) % 19 = 3 % 19 ∧ (11 : ℤ) % 19 = 11 % 19 :=
  ⟨rfl, by decide, by decide, by decide, by decide, by decide⟩

/-- C6: for `m ≥ 2` the base lift returns the `ValueError`-style message
reporting the determinant residue and modulus precisely when
`(a*d - b*c) % m ≠ 1`; in particular `(2, 0, 0, 1)` mod 5 produces exactly
"Determinant is 2 mod 5, should be 1" (also through `lift_matrix_to_sl2z`). -/
theorem claim_C6 (a b c d m n : ℤ) (hm : 2 ≤ m) :
    (lift_to_gamma1 [a, b, c, d] m n
        = .error ("Determinant is " ++ toString ((a * d - b * c) % m) ++ " mod "
            ++ toString m ++ ", should be 1")
      ↔ (a * d - b * c) % m ≠ 1)
    ∧ lift_matrix_to_sl2z [2, 0, 0, 1] 5
        = .error "Determinant is 2 mod 5, should be 1" := by
  refine ⟨⟨fun h hdet1 => ?_, fun hdet1 => lift_to_gamma1_error_of_det a b c d m n (by omega) hdet1⟩, rfl⟩
  obtain ⟨l, hl⟩ := lift_to_gamma1_isOk a b c d m n (by omega) hdet1
  rw [hl] at h
  exact Except.noConfusion h

/-- Witness for C6 at `(2, 0, 0, 1)`, `m = 5`, `n = 1`. -/
theorem claim_C6_witness :
    ((lift_to_gamma1 [2, 0, 0, 1] 5 1
        = .error ("Determinant is " ++ toString (((2 : ℤ) * 1 - 0 * 0) % 5) ++ " mod "
            ++ toString (5 : ℤ) ++ ", should be 1")
      ↔ ((2 : ℤ) * 1 - 0 * 0) % 5 ≠ 1)
    ∧ lift_matrix_to_sl2z [2, 0, 0, 1] 5
        = .error "Determinant is 2 mod 5, should be 1") :=
  claim_C6 2 0 0 1 5 1 (by norm_num)

/-! ### The ramified lift -/

theorem ramified_setup (g0 g1 g2 g3 p : ℤ) (u : ℕ) (n : ℤ) (hp2 : 2 ≤ p) (hu : 1 ≤ u)
    (hn : 1 ≤ n) (hpn : Int.gcd p n = 1) (hpg2 : p ∣ g2)
    (hdet : (g0 * g3 - g1 * g2) % p ^ u = 1) :
    ∃ a b c d, lift_to_gamma1 [g0, g1, g2, g3] (p ^ u) n = .ok [a, b, c, d]
    ∧ a * d - b * c = 1
    ∧ a ≡ g0 [ZMOD p ^ u] ∧ b ≡ g1 [ZMOD p ^ u] ∧ c ≡ g2 [ZMOD p ^ u] ∧ d ≡ g3 [ZMOD p ^ u]
    ∧ a ≡ 1 [ZMOD n] ∧ c ≡ 0 [ZMOD n] ∧ d ≡ 1 [ZMOD n]
    ∧ p ^ u ∣ (c - g2) ∧ Int.gcd a p = 1 := by
  have hpu2 : 2 ≤ p ^ u := le_trans hp2 (le_self_pow₀ (by omega) (by omega))
  have hpun : Int.gcd (p ^ u) n = 1 := by
    rw [Int.gcd_def, Int.natAbs_pow]
    exact Nat.Coprime.pow_left u hpn
  obtain ⟨a, b, c, d, heq, hdet1, hg0, hg1, hg2m, hg3m, han, hcn, hdn⟩ :=
    lift_to_gamma1_spec g0 g1 g2 g3 (p ^ u) n hpu2 hn hpun hdet
  have hdvd : p ^ u ∣ (c - g2) := dvd_sub_comm.mp (Int.modEq_iff_dvd.mp hg2m)
  refine ⟨a, b, c, d, heq, hdet1, hg0, hg1, hg2m, hg3m, han, hcn, hdn, hdvd, ?_⟩
  have hpc : p ∣ c := by
    have h1 : p ∣ c - g2 := (dvd_pow_self p (by omega : u ≠ 0)).trans hdvd
    have := h1.add hpg2
    simpa using this
  set K := Int.gcd a p with hK
  have hKa : (K : ℤ) ∣ a := Int.gcd_dvd_left
  have hKc : (K : ℤ) ∣ c := Int.gcd_dvd_right.trans hpc
  have h1 : (K : ℤ) ∣ 1 := by
    rw [← hdet1]
    exact (hKa.mul_right d).sub (hKc.mul_left b)
  exact_mod_cast Int.eq_one_of_dvd_one (by positivity) h1

/-- C3: for `p` prime, `u ≥ 1`, `n` coprime to `p`, `p ∣ g2` and
`g0*g3 - g1*g2 ≡ 1 (mod p^u)`, the ramified lift returns four integers
congruent to the input mod `p^u`, whose lower-left entry moreover matches
`g2` mod `p^(u+1)`, with determinant exactly 1 and congruent to an upper
unitriangular matrix mod `n`. -/
theorem claim_C3 (g0 g1 g2 g3 p : ℤ) (u : ℕ) (n : ℤ) (hp : Prime p) (hp2 : 2 ≤ p)
    (hu : 1 ≤ u) (hn : 1 ≤ n) (hpn : Int.gcd p n = 1) (hpg2 : p ∣ g2)
    (hdet : (g0 * g3 - g1 * g2) % p ^ u = 1) :
    ∃ A B C D, lift_ramified [g0, g1, g2, g3] p u n = .ok [A, B, C, D]
    ∧ A * D - B * C = 1
    ∧ A ≡ g0 [ZMOD p ^ u] ∧ B ≡ g1 [ZMOD p ^ u] ∧ C ≡ g2 [ZMOD p ^ u] ∧ D ≡ g3 [ZMOD p ^ u]
    ∧ C ≡ g2 [ZMOD p ^ (u + 1)]
    ∧ A ≡ 1 [ZMOD n] ∧ C ≡ 0 [ZMOD n] ∧ D ≡ 1 [ZMOD n] := by
  obtain ⟨a, b, c, d, heq, hdet1, hg0, hg1, hg2m, hg3m, han, hcn, hdn, hdvd, hga⟩ :=
    ramified_setup g0 g1 g2 g3 p u n hp2 hu hn hpn hpg2 hdet
  have hp0 : 0 < p := by omega
  set q := (c - g2) / p ^ u with hq
  have hqe : q * p ^ u = c - g2 := Int.ediv_mul_cancel hdvd
  have hinv := inverse_mod_spec a p hp0 hga
  set ia := inverse_mod a p with hia
  obtain ⟨hrp, hrn, _, _⟩ := crt_spec (q * ia) 0 p n hp0 (by omega) hpn
  set r := crt (q * ia) 0 p n with hr
  have hkey : lift_ramified [g0, g1, g2, g3] p u n
      = .ok [a, b, c - p ^ u * r * a, d - p ^ u * r * b] := by
    simp only [lift_ramified, heq]
  have hCm : c - p ^ u * r * a ≡ g2 [ZMOD p ^ u] := by
    refine Int.ModEq.trans ?_ hg2m
    rw [Int.modEq_iff_dvd]
    exact ⟨r * a, by ring⟩
  have hDm : d - p ^ u * r * b ≡ g3 [ZMOD p ^ u] := by
    refine Int.ModEq.trans ?_ hg3m
    rw [Int.modEq_iff_dvd]
    exact ⟨r * b, by ring⟩
  have hra : r * a ≡ q [ZMOD p] := by
    calc r * a ≡ q * ia * a [ZMOD p] := hrp.mul_right a
    _ = q * (a * ia) := by ring
    _ ≡ q * 1 [ZMOD p] := hinv.mul_left q
    _ = q := by ring
  have hCp1 : c - p ^ u * r * a ≡ g2 [ZMOD p ^ (u + 1)] := by
    rw [Int.modEq_iff_dvd]
    obtain ⟨w, hw⟩ := Int.modEq_iff_dvd.mp hra
    refine ⟨-w, ?_⟩
    rw [pow_succ]
    have hg2c : g2 - c = -(q * p ^ u) := by rw [hqe]; ring
    calc g2 - (c - p ^ u * r * a) = (g2 - c) + p ^ u * (r * a) := by ring
    _ = -(q * p ^ u) + p ^ u * (r * a) := by rw [hg2c]
    _ = p ^ u * ((q - r * a) * (-1)) := by ring
    _ = p ^ u * (p * w * (-1)) := by rw [← hw]
    _ = p ^ u * p * (-w) := by ring
  have hCn2 : c - p ^ u * r * a ≡ 0 [ZMOD n] := by
    have h1 : c - p ^ u * r * a ≡ c - p ^ u * 0 * a [ZMOD n] :=
      Int.ModEq.sub (Int.ModEq.refl c) ((hrn.mul_left (p ^ u)).mul_right a)
    have h2 : c - p ^ u * 0 * a = c := by ring
    rw [h2] at h1
    exact h1.trans hcn
  have hDn2 : d - p ^ u * r * b ≡ 1 [ZMOD n] := by
    have h1 : d - p ^ u * r * b ≡ d - p ^ u * 0 * b [ZMOD n] :=
      Int.ModEq.sub (Int.ModEq.refl d) ((hrn.mul_left (p ^ u)).mul_right b)
    have h2 : d - p ^ u * 0 * b = d := by ring
    rw [h2] at h1
    exact h1.trans hdn
  refine ⟨a, b, c - p ^ u * r * a, d - p ^ u * r * b, hkey, ?_, hg0, hg1, hCm, hDm,
    hCp1, han, hCn2, hDn2⟩
  linear_combination hdet1

/-- Witness for C3 at the doctest input `([2, 2, 3, 2], p = 3, u = 1, n = 1)`. -/
theorem claim_C3_witness :
    ∃ A B C D, lift_ramified [2, 2, 3, 2] 3 1 1 = .ok [A, B, C, D]
    ∧ A * D - B * C = 1
    ∧ A ≡ 2 [ZMOD 3 ^ 1] ∧ B ≡ 2 [ZMOD 3 ^ 1] ∧ C ≡ 3 [ZMOD 3 ^ 1] ∧ D ≡ 2 [ZMOD 3 ^ 1]
    ∧ C ≡ 3 [ZMOD 3 ^ (1 + 1)]
    ∧ A ≡ 1 [ZMOD 1] ∧ C ≡ 0 [ZMOD 1] ∧ D ≡ 1 [ZMOD 1] :=
  claim_C3 2 2 3 2 3 1 1 (by norm_num) (by norm_num) (by norm_num) (by norm_num)
    (by decide) (by decide) (by decide)

/-- C10: under the ramified preconditions, the base-lift output `(a, b, c, d)`
satisfies `p^u ∣ c - g2` (so the integer division in `lift_ramified` is exact)
and `gcd(a, p) = 1` (so `inverse_mod a p` and the `crt` call cannot fail). -/
theorem claim_C10 (g0 g1 g2 g3 p : ℤ) (u : ℕ) (n : ℤ) (hp : Prime p) (hp2 : 2 ≤ p)
    (hu : 1 ≤ u) (hn : 1 ≤ n) (hpn : Int.gcd p n = 1) (hpg2 : p ∣ g2)
    (hdet : (g0 * g3 - g1 * g2) % p ^ u = 1) :
    ∃ a b c d, lift_to_gamma1 [g0, g1, g2, g3] (p ^ u) n = .ok [a, b, c, d]
    ∧ p ^ u ∣ (c - g2) ∧ Int.gcd a p = 1 := by
  obtain ⟨a, b, c, d, heq, _, _, _, _, _, _, _, _, hdvd, hga⟩ :=
    ramified_setup g0 g1 g2 g3 p u n hp2 hu hn hpn hpg2 hdet
  exact ⟨a, b, c, d, heq, hdvd, hga⟩

/-- Witness for C10 at the doctest input `([8, 2, 12, 2], p = 3, u = 2, n = 23)`. -/
theorem claim_C10_witness :
    ∃ a b c d, lift_to_gamma1 [8, 2, 12, 2] (3 ^ 2) 23 = .ok [a, b, c, d]
    ∧ (3 : ℤ) ^ 2 ∣ (c - 12) ∧ Int.gcd a 3 = 1 :=
  claim_C10 8 2 12 2 3 2 23 (by norm_num) (by norm_num) (by norm_num) (by norm_num)
    (by decide) (by decide) (by decide)

/-! ### The odd uniformiser lift -/

/-- C5 counterexample: at the valid input `(p, u, n) = (3, 2, 11)` (3 prime,
`u = 2 ≥ 1`, `gcd(3, 11) = 1`), the output is `(432, 377, 165, 144)` — the
repository's own doctest value — and its upper-right entry 377 is not
congruent to 0 mod 11, so the output is not congruent to `diag(p, 1)`
entrywise mod `n` as the claim asserts. -/
theorem claim_C5_counterexample :
    lift_uniformiser_odd 3 2 11 = .ok [432, 377, 165, 144]
    ∧ ¬ ((377 : ℤ) ≡ 0 [ZMOD 11]) :=
  ⟨rfl, by decide⟩

/-- C5 (amended): for `p` prime with `p ≥ 2`, `u ≥ 1` and `n ≥ 1` coprime to
`p`, `lift_uniformiser_odd(p, u, n)` equals the generator lift modulo `p^u`
and `n` with its entries 0 and 2 multiplied by `p`; the four resulting
integers have determinant exactly `p`, and the entries other than the
upper-right one are congruent to `diag(p, 1)` mod `n` (upper-left `p`,
lower-left 0, lower-right 1; the upper-right entry is unconstrained mod `n`). -/
theorem claim_C5 (p : ℤ) (u : ℕ) (n : ℤ) (hp : Prime p) (hp2 : 2 ≤ p) (hu : 1 ≤ u)
    (hn : 1 ≤ n) (hpn : Int.gcd p n = 1) :
    ∃ g0 g1 g2 g3, lift_gen_to_gamma1 (p ^ u) n = .ok [g0, g1, g2, g3]
    ∧ lift_uniformiser_odd p u n = .ok [p * g0, g1, p * g2, g3]
    ∧ (p * g0) * g3 - g1 * (p * g2) = p
    ∧ p * g0 ≡ p [ZMOD n] ∧ p * g2 ≡ 0 [ZMOD n] ∧ g3 ≡ 1 [ZMOD n] := by
  have hpu2 : 2 ≤ p ^ u := le_trans hp2 (le_self_pow₀ (by omega) (by omega))
  have hpun : Int.gcd (p ^ u) n = 1 := by
    rw [Int.gcd_def, Int.natAbs_pow]
    exact Nat.Coprime.pow_left u hpn
  have hdet0 : ((0 : ℤ) * 0 - (-1) * 1) % p ^ u = 1 := by
    rw [show ((0 : ℤ) * 0 - (-1) * 1) = 1 by ring]
    exact Int.emod_eq_of_lt (by norm_num) (by omega)
  obtain ⟨A, B, C, D, heq, hdet, _, _, _, _, hAn, hCn, hDn⟩ :=
    lift_to_gamma1_spec 0 (-1) 1 0 (p ^ u) n hpu2 hn hpun hdet0
  have heq' : lift_gen_to_gamma1 (p ^ u) n = .ok [A, B, C, D] := heq
  have hkey : lift_uniformiser_odd p u n = .ok [p * A, B, p * C, D] := by
    simp only [lift_uniformiser_odd, lift_gen_to_gamma1, heq]
  refine ⟨A, B, C, D, heq', hkey, ?_, ?_, ?_, hDn⟩
  · linear_combination p * hdet
  · have := hAn.mul_left p
    simpa using this
  · have := hCn.mul_left p
    simpa using this

/-- Witness for C5 (amended) at the doctest input `(3, 2, 11)`. -/
theorem claim_C5_witness :
    ∃ g0 g1 g2 g3, lift_gen_to_gamma1 (3 ^ 2) 11 = .ok [g0, g1, g2, g3]
    ∧ lift_uniformiser_odd 3 2 11 = .ok [3 * g0, g1, 3 * g2, g3]
    ∧ (3 * g0) * g3 - g1 * (3 * g2) = 3
    ∧ 3 * g0 ≡ 3 [ZMOD 11] ∧ 3 * g2 ≡ 0 [ZMOD 11] ∧ g3 ≡ 1 [ZMOD 11] :=
  claim_C5 3 2 11 (by norm_num) (by norm_num) (by norm_num) (by norm_num) (by decide)

/-- C7: with `m = 1` the base lift returns the identity `(1, 0, 0, 1)` for
every input list and every secondary modulus, raising no error. -/
theorem claim_C7 (g : List ℤ) (n : ℤ) : lift_to_gamma1 g 1 n = .ok [1, 0, 0, 1] := rfl

/-- C8: `lift_matrix_to_sl2z(A, N)` is exactly `lift_to_gamma1(A, N, 1)` and
`lift_gen_to_gamma1(m, n)` is exactly `lift_to_gamma1([0, -1, 1, 0], m, n)`. -/
theorem claim_C8 :
    (∀ (A : List ℤ) (N : ℤ), lift_matrix_to_sl2z A N = lift_to_gamma1 A N 1)
    ∧ (∀ m n : ℤ, lift_gen_to_gamma1 m n = lift_to_gamma1 [0, -1, 1, 0] m n) :=
  ⟨fun _ _ => rfl, fun _ _ => rfl⟩

/-! ### The general `SL_n` lift `lift_for_SL`

The source computes `D, U, V = A.smith_form()` with `D = U*A*V`, fixes the
signs of `det U`, `det V`, and reduces the problem to dimension `n - 1`
following Shimura, Lemma 1.38.  `smith_form` is an external primitive
(`sage.matrix`); it is modelled from the spec as an oracle producing a triple
`(D, U, V)`, whose Smith-form properties ("U, V unimodular and D diagonal",
`D = U*A*V`) are recorded by `SNFOk` and assumed along the call tree. -/

/-- Square integer matrices. -/
abbrev Mat (k : ℕ) := Matrix (Fin k) (Fin k) ℤ

/-- Modelled from the spec: an oracle standing for the external `smith_form`
primitive, returning a candidate `(D, U, V)` for every square matrix. -/
def SNFOracle := (k : ℕ) → Mat k → Mat k × Mat k × Mat k

/-- Inverse of a unimodular integer matrix, `det M • adjugate M`; models the
exact inverse `~M` of the source (which is integral for unimodular `M`). -/
def uninv {k : ℕ} (M : Mat k) : Mat k := M.det • M.adjugate

/-- The sign-fixing factor `diagonal_matrix([-1] + [1]*(m-1))` of the source
(stated at size `k + 2`, the only size at which it is used). -/
def negFirst (k : ℕ) : Mat (k + 2) := Matrix.diagonal (fun i => if i = 0 then -1 else 1)

/-- The factor `U` after the sign fix `if U.det() == -1: U = diag * U`. -/
def snfU (sf : SNFOracle) {k : ℕ} (A : Mat (k + 2)) : Mat (k + 2) :=
  if (sf (k + 2) A).2.1.det = -1 then negFirst k * (sf (k + 2) A).2.1
  else (sf (k + 2) A).2.1

/-- The factor `V` after the sign fix `if V.det() == -1: V = V * diag`. -/
def snfV (sf : SNFOracle) {k : ℕ} (A : Mat (k + 2)) : Mat (k + 2) :=
  if (sf (k + 2) A).2.2.det = -1 then (sf (k + 2) A).2.2 * negFirst k
  else (sf (k + 2) A).2.2

/-- The recomputed `D = U * A * V` of the source (after the sign fix). -/
def snfD (sf : SNFOracle) {k : ℕ} (A : Mat (k + 2)) : Mat (k + 2) :=
  snfU sf A * A * snfV sf A

/-- The diagonal entries `a = [D[i,i] for i in range(m)]` of the source. -/
def snfa (sf : SNFOracle) {k : ℕ} (A : Mat (k + 2)) : Fin (k + 2) → ℤ :=
  fun i => snfD sf A i i

/-- The product `b = prod(a[1:])` of the source. -/
def snfb (sf : SNFOracle) {k : ℕ} (A : Mat (k + 2)) : ℤ :=
  ∏ i : Fin (k + 1), snfa sf A i.succ

/-- The matrix `W`: identity with `W[0,0] = b`, `W[1,0] = b - 1`, `W[0,1] = 1`. -/
def Wmat (k : ℕ) (b : ℤ) : Mat (k + 2) := Matrix.of fun i j =>
  if i = 0 ∧ j = 0 then b
  else if i = 1 ∧ j = 0 then b - 1
  else if i = 0 ∧ j = 1 then 1
  else if i = j then 1 else 0

/-- The matrix `X`: identity with `X[0,1] = -a[1]`. -/
def Xmat (k : ℕ) (a1 : ℤ) : Mat (k + 2) := Matrix.of fun i j =>
  if i = 0 ∧ j = 1 then -a1 else if i = j then 1 else 0

/-- The reduced problem `Cp = diagonal_matrix(a[1:])` with `Cp[0,0] *= a[0]`. -/
def Cpmat {k : ℕ} (a : Fin (k + 2) → ℤ) : Mat (k + 1) := Matrix.of fun i j =>
  if i = j then (if i = 0 then a 1 * a 0 else a i.succ) else 0

/-- The embedding `Cpp = block_diagonal_matrix(identity_matrix(1), C)` with
`Cpp[1,0] = 1 - a[0]`. -/
def Cppmat {k : ℕ} (a0 : ℤ) (C : Mat (k + 1)) : Mat (k + 2) := Matrix.of fun i j =>
  if hi : i = 0 then (if j = 0 then 1 else 0)
  else if hj : j = 0 then (if i = 1 then 1 - a0 else 0)
  else C (i.pred hi) (j.pred hj)

/-- Embedding of `lift_for_SL(A, N)` (liftings.py lines 173-245), parameterized
by the Smith-form oracle.  The source also constructs a matrix `Ap` (lines
233-236) which is never used in the result; it is omitted.  `N` is only
passed through to the recursive call, exactly as in the source. -/
def lift_for_SL (sf : SNFOracle) : {m : ℕ} → Mat m → ℤ → Mat m
  | 0, _, _ => 1
  | 1, _, _ => 1
  | (k + 2), A, N =>
    uninv (snfU sf A) * uninv (Wmat k (snfb sf A))
      * Cppmat (snfa sf A 0) (lift_for_SL sf (Cpmat (snfa sf A)) N)
      * uninv (Xmat k (snfa sf A 1)) * uninv (snfV sf A)

/-- Modelled from the spec: correctness of the Smith-form oracle along the
call tree of `lift_for_SL`: at every visited matrix the oracle's triple
`(D0, U0, V0)` satisfies `D0 = U0 * A * V0`, `D0` diagonal, and
`det U0, det V0 ∈ {1, -1}` (spec: "`U, V` unimodular and `D` diagonal"). -/
def SNFOk (sf : SNFOracle) : {m : ℕ} → Mat m → ℤ → Prop
  | 0, _, _ => True
  | 1, _, _ => True
  | (k + 2), A, N =>
    ((sf (k + 2) A).2.1.det = 1 ∨ (sf (k + 2) A).2.1.det = -1)
    ∧ ((sf (k + 2) A).2.2.det = 1 ∨ (sf (k + 2) A).2.2.det = -1)
    ∧ (sf (k + 2) A).1 = (sf (k + 2) A).2.1 * A * (sf (k + 2) A).2.2
    ∧ (∀ i j, i ≠ j → (sf (k + 2) A).1 i j = 0)
    ∧ SNFOk sf (Cpmat (snfa sf A)) N

theorem prodIte (x : ℤ) (k : ℕ) :
    (∏ i : Fin (k + 1), (if i = 0 then x else 1)) = x := by
  rw [Fin.prod_univ_succ]
  simp [Fin.succ_ne_zero]

theorem negFirst_det (k : ℕ) : (negFirst k).det = -1 := by
  rw [negFirst, Matrix.det_diagonal]
  have := prodIte (-1 : ℤ) (k + 1)
  simpa using this

theorem uninv_mul {k : ℕ} (M : Mat k) (h : M.det = 1 ∨ M.det = -1) :
    uninv M * M = 1 ∧ M * uninv M = 1 := by
  constructor
  · rw [uninv, Matrix.smul_mul, Matrix.adjugate_mul, smul_smul]
    rcases h with h | h <;> rw [h] <;> norm_num
  · rw [uninv, Matrix.mul_smul, Matrix.mul_adjugate, smul_smul]
    rcases h with h | h <;> rw [h] <;> norm_num

theorem det_uninv_one {k : ℕ} (M : Mat k) (h : M.det = 1) : (uninv M).det = 1 := by
  have h1 := (uninv_mul M (Or.inl h)).1
  have h2 := congrArg Matrix.det h1
  rw [Matrix.det_mul, Matrix.det_one, h, mul_one] at h2
  exact h2

theorem snfU_spec (sf : SNFOracle) {k : ℕ} (A : Mat (k + 2))
    (h : (sf (k + 2) A).2.1.det = 1 ∨ (sf (k + 2) A).2.1.det = -1) :
    ∃ e : Fin (k + 2) → ℤ,
      snfU sf A = Matrix.diagonal e * (sf (k + 2) A).2.1 ∧ (snfU sf A).det = 1 := by
  rw [snfU]
  rcases h with h | h
  · rw [if_neg (by rw [h]; norm_num)]
    exact ⟨fun _ => 1, by rw [Matrix.diagonal_one, one_mul], h⟩
  · rw [if_pos h]
    refine ⟨fun i => if i = 0 then -1 else 1, rfl, ?_⟩
    rw [Matrix.det_mul, negFirst_det, h]
    norm_num

theorem snfV_spec (sf : SNFOracle) {k : ℕ} (A : Mat (k + 2))
    (h : (sf (k + 2) A).2.2.det = 1 ∨ (sf (k + 2) A).2.2.det = -1) :
    ∃ e : Fin (k + 2) → ℤ,
      snfV sf A = (sf (k + 2) A).2.2 * Matrix.diagonal e ∧ (snfV sf A).det = 1 := by
  rw [snfV]
  rcases h with h | h
  · rw [if_neg (by rw [h]; norm_num)]
    exact ⟨fun _ => 1, by rw [Matrix.diagonal_one, mul_one], h⟩
  · rw [if_pos h]
    refine ⟨fun i => if i = 0 then -1 else 1, rfl, ?_⟩
    rw [Matrix.det_mul, negFirst_det, h]
    norm_num

/-! #### Entrywise descriptions of the special matrices -/

theorem fin_succ_eq_one_iff {k : ℕ} (i : Fin (k + 1)) : i.succ = (1 : Fin (k + 2)) ↔ i = 0 := by
  rw [← Fin.succ_zero_eq_one, Fin.succ_inj]

theorem Wmat_zero_zero (k : ℕ) (b : ℤ) : Wmat k b 0 0 = b := by
  simp [Wmat]

theorem Wmat_zero_succ (k : ℕ) (b : ℤ) (j : Fin (k + 1)) :
    Wmat k b 0 j.succ = if j = 0 then 1 else 0 := by
  by_cases hj : j = 0
  · subst hj
    simp [Wmat, Fin.succ_zero_eq_one, (Fin.zero_ne_one (n := k + 1)), Fin.succ_ne_zero]
  · have h1 : j.succ ≠ 0 := Fin.succ_ne_zero j
    have h2 : j.succ ≠ (1 : Fin (k + 2)) := by
      rw [Ne, fin_succ_eq_one_iff]
      exact hj
    have h3 : (0 : Fin (k + 2)) ≠ j.succ := fun h => h1 h.symm
    simp [Wmat, h1, h2, h3, hj]

theorem Wmat_succ_zero (k : ℕ) (b : ℤ) (i : Fin (k + 1)) :
    Wmat k b i.succ 0 = if i = 0 then b - 1 else 0 := by
  by_cases hi : i = 0
  · subst hi
    simp [Wmat, Fin.succ_zero_eq_one, Fin.succ_ne_zero]
  · have h1 : i.succ ≠ 0 := Fin.succ_ne_zero i
    have h2 : i.succ ≠ (1 : Fin (k + 2)) := by
      rw [Ne, fin_succ_eq_one_iff]
      exact hi
    have h3 : i.succ ≠ (0 : Fin (k + 2)) := h1
    simp [Wmat, h1, h2, h3, hi]

theorem Wmat_succ_succ (k : ℕ) (b : ℤ) (i j : Fin (k + 1)) :
    Wmat k b i.succ j.succ = if i = j then 1 else 0 := by
  have h1 : i.succ ≠ 0 := Fin.succ_ne_zero i
  have h2 : j.succ ≠ 0 := Fin.succ_ne_zero j
  simp [Wmat, h1, h2, Fin.succ_inj]

theorem Xmat_zero_zero (k : ℕ) (a1 : ℤ) : Xmat k a1 0 0 = 1 := by
  simp [Xmat, (Fin.zero_ne_one (n := k + 1))]

theorem Xmat_zero_succ (k : ℕ) (a1 : ℤ) (j : Fin (k + 1)) :
    Xmat k a1 0 j.succ = if j = 0 then -a1 else 0 := by
  by_cases hj : j = 0
  · subst hj
    simp [Xmat, Fin.succ_zero_eq_one]
  · have h2 : j.succ ≠ (1 : Fin (k + 2)) := by
      rw [Ne, fin_succ_eq_one_iff]
      exact hj
    have h3 : (0 : Fin (k + 2)) ≠ j.succ := fun h => (Fin.succ_ne_zero j) h.symm
    simp [Xmat, h2, h3, hj]

theorem Xmat_succ_zero (k : ℕ) (a1 : ℤ) (i : Fin (k + 1)) :
    Xmat k a1 i.succ 0 = 0 := by
  have h1 : i.succ ≠ 0 := Fin.succ_ne_zero i
  simp [Xmat, h1]

theorem Xmat_succ_succ (k : ℕ) (a1 : ℤ) (i j : Fin (k + 1)) :
    Xmat k a1 i.succ j.succ = if i = j then 1 else 0 := by
  have h1 : i.succ ≠ 0 := Fin.succ_ne_zero i
  simp [Xmat, h1, Fin.succ_inj]

theorem Cppmat_zero_zero {k : ℕ} (a0 : ℤ) (C : Mat (k + 1)) : Cppmat a0 C 0 0 = 1 := by
  simp [Cppmat]

theorem Cppmat_zero_succ {k : ℕ} (a0 : ℤ) (C : Mat (k + 1)) (j : Fin (k + 1)) :
    Cppmat a0 C 0 j.succ = 0 := by
  simp [Cppmat, Fin.succ_ne_zero]

theorem Cppmat_succ_zero {k : ℕ} (a0 : ℤ) (C : Mat (k + 1)) (i : Fin (k + 1)) :
    Cppmat a0 C i.succ 0 = if i = 0 then 1 - a0 else 0 := by
  have h1 : i.succ ≠ 0 := Fin.succ_ne_zero i
  by_cases hi : i = 0
  · subst hi
    simp [Cppmat, h1, Fin.succ_zero_eq_one]
  · have h2 : i.succ ≠ (1 : Fin (k + 2)) := fun h => hi ((fin_succ_eq_one_iff i).mp h)
    simp [Cppmat, h1, h2, hi]

theorem Cppmat_succ_succ {k : ℕ} (a0 : ℤ) (C : Mat (k + 1)) (i j : Fin (k + 1)) :
    Cppmat a0 C i.succ j.succ = C i j := by
  have h1 : i.succ ≠ 0 := Fin.succ_ne_zero i
  have h2 : j.succ ≠ 0 := Fin.succ_ne_zero j
  simp [Cppmat, h1, h2, Fin.pred_succ]

theorem Cpmat_zero_zero {k : ℕ} (a : Fin (k + 2) → ℤ) : Cpmat a 0 0 = a 1 * a 0 := by
  simp [Cpmat]

theorem Cpmat_zero_succ {k : ℕ} (a : Fin (k + 2) → ℤ) (j : Fin k) :
    Cpmat a 0 j.succ = 0 := by
  have : (0 : Fin (k + 1)) ≠ j.succ := fun h => (Fin.succ_ne_zero j) h.symm
  simp [Cpmat, this]

theorem Cpmat_succ_zero {k : ℕ} (a : Fin (k + 2) → ℤ) (i : Fin k) :
    Cpmat a i.succ 0 = 0 := by
  simp [Cpmat, Fin.succ_ne_zero]

theorem Cpmat_succ_succ {k : ℕ} (a : Fin (k + 2) → ℤ) (i j : Fin k) :
    Cpmat a i.succ j.succ = if i = j then a i.succ.succ else 0 := by
  simp [Cpmat, Fin.succ_inj, Fin.succ_ne_zero]

/-! #### Determinants of the special matrices -/

theorem Wmat_det (k : ℕ) (b : ℤ) : (Wmat k b).det = 1 := by
  have hminor0 : (Wmat k b).submatrix Fin.succ ((0 : Fin (k + 2)).succAbove) = 1 := by
    ext i j
    rw [Matrix.submatrix_apply, Fin.succAbove_zero, Wmat_succ_succ]
    rw [Matrix.one_apply]
  have hminor1 : (Wmat k b).submatrix Fin.succ ((1 : Fin (k + 2)).succAbove)
      = Matrix.diagonal (fun i : Fin (k + 1) => if i = 0 then b - 1 else 1) := by
    ext i j
    rw [Matrix.submatrix_apply]
    induction j using Fin.cases with
    | zero =>
      rw [Fin.one_succAbove_zero, Wmat_succ_zero]
      by_cases hi : i = 0
      · subst hi
        rw [if_pos rfl, Matrix.diagonal_apply_eq, if_pos rfl]
      · rw [if_neg hi, Matrix.diagonal_apply_ne _ hi]
    | succ j' =>
      rw [Fin.one_succAbove_succ, Wmat_succ_succ]
      by_cases hij : i = j'.succ
      · subst hij
        rw [if_pos rfl, Matrix.diagonal_apply_eq, if_neg (Fin.succ_ne_zero j')]
      · rw [if_neg hij, Matrix.diagonal_apply_ne _ hij]
  rw [Matrix.det_succ_row_zero, Fin.sum_univ_succ, Fin.sum_univ_succ]
  have htail : (∑ j : Fin k, (-1 : ℤ) ^ ((j.succ.succ : Fin (k + 2)) : ℕ)
      * Wmat k b 0 j.succ.succ
      * ((Wmat k b).submatrix Fin.succ (j.succ.succ : Fin (k + 2)).succAbove).det) = 0 := by
    refine Finset.sum_eq_zero fun j _ => ?_
    rw [Wmat_zero_succ]
    rw [if_neg (Fin.succ_ne_zero j)]
    ring
  rw [htail]
  rw [show Wmat k b 0 (Fin.succ 0) = 1 from by rw [Wmat_zero_succ, if_pos rfl]]
  rw [show (Fin.succ (0 : Fin (k + 1))) = (1 : Fin (k + 2)) from Fin.succ_zero_eq_one]
  rw [hminor0, hminor1, Wmat_zero_zero, Matrix.det_one, Matrix.det_diagonal, prodIte]
  simp

theorem Xmat_det (k : ℕ) (a1 : ℤ) : (Xmat k a1).det = 1 := by
  have hminor0 : (Xmat k a1).submatrix Fin.succ ((0 : Fin (k + 2)).succAbove) = 1 := by
    ext i j
    rw [Matrix.submatrix_apply, Fin.succAbove_zero, Xmat_succ_succ]
    rw [Matrix.one_apply]
  have hminor1 : ((Xmat k a1).submatrix Fin.succ ((1 : Fin (k + 2)).succAbove)).det = 0 := by
    refine Matrix.det_eq_zero_of_column_eq_zero 0 fun i => ?_
    rw [Matrix.submatrix_apply, Fin.one_succAbove_zero, Xmat_succ_zero]
  rw [Matrix.det_succ_row_zero, Fin.sum_univ_succ, Fin.sum_univ_succ]
  have htail : (∑ j : Fin k, (-1 : ℤ) ^ ((j.succ.succ : Fin (k + 2)) : ℕ)
      * Xmat k a1 0 j.succ.succ
      * ((Xmat k a1).submatrix Fin.succ (j.succ.succ : Fin (k + 2)).succAbove).det) = 0 := by
    refine Finset.sum_eq_zero fun j _ => ?_
    rw [Xmat_zero_succ]
    rw [if_neg (Fin.succ_ne_zero j)]
    ring
  rw [htail]
  rw [show (Fin.succ (0 : Fin (k + 1))) = (1 : Fin (k + 2)) from Fin.succ_zero_eq_one]
  rw [hminor0, hminor1, Xmat_zero_zero, Matrix.det_one]
  simp

theorem Cppmat_det {k : ℕ} (a0 : ℤ) (C : Mat (k + 1)) : (Cppmat a0 C).det = C.det := by
  have hminor0 : (Cppmat a0 C).submatrix Fin.succ ((0 : Fin (k + 2)).succAbove) = C := by
    ext i j
    rw [Matrix.submatrix_apply, Fin.succAbove_zero, Cppmat_succ_succ]
  rw [Matrix.det_succ_row_zero, Fin.sum_univ_succ]
  have htail : (∑ j : Fin (k + 1), (-1 : ℤ) ^ ((j.succ : Fin (k + 2)) : ℕ)
      * Cppmat a0 C 0 j.succ
      * ((Cppmat a0 C).submatrix Fin.succ (j.succ : Fin (k + 2)).succAbove).det) = 0 := by
    refine Finset.sum_eq_zero fun j _ => ?_
    rw [Cppmat_zero_succ]
    ring
  rw [htail, hminor0, Cppmat_zero_zero]
  simp

theorem Cpmat_eq_diagonal {k : ℕ} (a : Fin (k + 2) → ℤ) :
    Cpmat a = Matrix.diagonal (fun i : Fin (k + 1) => if i = 0 then a 1 * a 0 else a i.succ) := by
  ext i j
  by_cases h : i = j
  · subst h
    rw [Matrix.diagonal_apply_eq]
    simp [Cpmat]
  · rw [Matrix.diagonal_apply_ne _ h]
    simp [Cpmat, h]

theorem Cpmat_det {k : ℕ} (a : Fin (k + 2) → ℤ) :
    (Cpmat a).det = a 0 * ∏ i : Fin (k + 1), a i.succ := by
  rw [Cpmat_eq_diagonal, Matrix.det_diagonal, Fin.prod_univ_succ]
  rw [if_pos rfl]
  have hL : (∏ i : Fin k, if i.succ = (0 : Fin (k + 1)) then a 1 * a 0 else a i.succ.succ)
      = ∏ i : Fin k, a i.succ.succ := by
    refine Finset.prod_congr rfl fun i _ => ?_
    rw [if_neg (Fin.succ_ne_zero i)]
  rw [hL]
  have hR : (∏ i : Fin (k + 1), a i.succ) = a 1 * ∏ i : Fin k, a i.succ.succ := by
    rw [Fin.prod_univ_succ, Fin.succ_zero_eq_one]
  rw [hR]
  ring


theorem Xmat_eq (k : ℕ) (a1 : ℤ) :
    Xmat k a1 = 1 + Matrix.stdBasisMatrix 0 1 (-a1) := by
  ext i j
  rw [Matrix.add_apply]
  by_cases h : i = 0 ∧ j = 1
  · obtain ⟨hi, hj⟩ := h
    subst hi
    subst hj
    rw [Matrix.StdBasisMatrix.apply_same, Matrix.one_apply_ne (Fin.zero_ne_one)]
    simp [Xmat]
  · rw [Matrix.StdBasisMatrix.apply_of_ne]
    · rw [add_zero, Matrix.one_apply]
      simp only [Xmat, Matrix.of_apply, if_neg h]
    · intro hcon
      exact h ⟨hcon.1.symm, hcon.2.symm⟩

set_option maxHeartbeats 1000000 in
theorem Cpp_modEq_WDX {k : ℕ} (N : ℤ) (a : Fin (k + 2) → ℤ) (b : ℤ) (C : Mat (k + 1))
    (hab : a 0 * b ≡ 1 [ZMOD N])
    (hC : ∀ i j, C i j ≡ Cpmat a i j [ZMOD N]) :
    ∀ i j, Cppmat (a 0) C i j ≡ (Wmat k b * Matrix.diagonal a * Xmat k (a 1)) i j [ZMOD N] := by
  have hdvd1 : N ∣ 1 - a 0 * b := Int.modEq_iff_dvd.mp hab
  obtain ⟨w, hw⟩ := hdvd1
  have hsplit : Wmat k b * Matrix.diagonal a * Xmat k (a 1)
      = Wmat k b * Matrix.diagonal a
        + (Wmat k b * Matrix.diagonal a) * Matrix.stdBasisMatrix 0 1 (-(a 1)) := by
    rw [Xmat_eq, mul_add, mul_one]
  set WD := Wmat k b * Matrix.diagonal a with hWDdef
  have hWD : ∀ i j, WD i j = Wmat k b i j * a j := fun i j => Matrix.mul_diagonal a _ i j
  have hone : Fin.succ (0 : Fin (k + 1)) = (1 : Fin (k + 2)) := Fin.succ_zero_eq_one
  have hEcol0 : ∀ i, (WD * Matrix.stdBasisMatrix (0 : Fin (k + 2)) (1 : Fin (k + 2)) (-(a 1))) i 0 = 0 :=
    fun i => Matrix.StdBasisMatrix.mul_right_apply_of_ne _ _ _ _ _ Fin.zero_ne_one _
  have hEcol1 : ∀ i, (WD * Matrix.stdBasisMatrix (0 : Fin (k + 2)) (1 : Fin (k + 2)) (-(a 1))) i
        (Fin.succ (0 : Fin (k + 1)))
      = WD i 0 * (-(a 1)) := by
    intro i
    rw [hone]
    exact Matrix.StdBasisMatrix.mul_right_apply_same _ _ _ _ _
  have hEcolss : ∀ i (j'' : Fin k),
      (WD * Matrix.stdBasisMatrix (0 : Fin (k + 2)) (1 : Fin (k + 2)) (-(a 1))) i (j''.succ.succ) = 0 :=
    fun i j'' =>
      Matrix.StdBasisMatrix.mul_right_apply_of_ne _ _ _ _ _ (Fin.succ_succ_ne_one j'') _
  intro i j
  rw [hsplit, Matrix.add_apply]
  induction i using Fin.cases with
  | zero =>
    induction j using Fin.cases with
    | zero =>
      rw [Cppmat_zero_zero, hEcol0, hWD, Wmat_zero_zero, add_zero]
      calc (1 : ℤ) ≡ a 0 * b [ZMOD N] := hab.symm
      _ = b * a 0 := by ring
    | succ j' =>
      induction j' using Fin.cases with
      | zero =>
        rw [Cppmat_zero_succ, hEcol1, hWD, hWD, Wmat_zero_zero, Wmat_zero_succ, if_pos rfl,
          hone]
        rw [Int.modEq_iff_dvd]
        refine ⟨a 1 * w, ?_⟩
        linear_combination (a 1) * hw
      | succ j'' =>
        rw [Cppmat_zero_succ, hEcolss, hWD, Wmat_zero_succ, if_neg (Fin.succ_ne_zero j'')]
        norm_num
  | succ i' =>
    induction i' using Fin.cases with
    | zero =>
      induction j using Fin.cases with
      | zero =>
        rw [Cppmat_succ_zero, if_pos rfl, hEcol0, hWD, Wmat_succ_zero, if_pos rfl, add_zero]
        rw [Int.modEq_iff_dvd]
        refine ⟨-w, ?_⟩
        linear_combination -hw
      | succ j' =>
        induction j' using Fin.cases with
        | zero =>
          rw [Cppmat_succ_succ, hEcol1, hWD, hWD, Wmat_succ_zero, if_pos rfl,
            Wmat_succ_succ, if_pos rfl, hone]
          have hC00 : C 0 0 ≡ a 1 * a 0 [ZMOD N] := by
            have := hC 0 0
            rwa [Cpmat_zero_zero] at this
          refine hC00.trans ?_
          rw [Int.modEq_iff_dvd]
          refine ⟨a 1 * w, ?_⟩
          linear_combination (a 1) * hw
        | succ j'' =>
          rw [Cppmat_succ_succ, hEcolss, hWD, Wmat_succ_succ,
            if_neg (Ne.symm (Fin.succ_ne_zero j''))]
          have hC0j : C 0 j''.succ ≡ 0 [ZMOD N] := by
            have := hC 0 j''.succ
            rwa [Cpmat_zero_succ] at this
          refine hC0j.trans ?_
          norm_num
    | succ i'' =>
      induction j using Fin.cases with
      | zero =>
        rw [Cppmat_succ_zero, if_neg (Fin.succ_ne_zero i''), hEcol0, hWD, Wmat_succ_zero,
          if_neg (Fin.succ_ne_zero i''), add_zero]
        norm_num
      | succ j' =>
        induction j' using Fin.cases with
        | zero =>
          rw [Cppmat_succ_succ, hEcol1, hWD, hWD, Wmat_succ_zero,
            if_neg (Fin.succ_ne_zero i''), Wmat_succ_succ,
            if_neg (Fin.succ_ne_zero i''), hone]
          have hCi0 : C i''.succ 0 ≡ 0 [ZMOD N] := by
            have := hC i''.succ 0
            rwa [Cpmat_succ_zero] at this
          refine hCi0.trans ?_
          norm_num
        | succ j'' =>
          rw [Cppmat_succ_succ, hEcolss, hWD, Wmat_succ_succ]
          have hCij : C i''.succ j''.succ
              ≡ (if i'' = j'' then a i''.succ.succ else 0) [ZMOD N] := by
            have := hC i''.succ j''.succ
            rwa [Cpmat_succ_succ] at this
          refine hCij.trans ?_
          by_cases hij : i'' = j''
          · subst hij
            rw [if_pos rfl, if_pos rfl]
            norm_num
          · rw [if_neg hij, if_neg (fun h => hij (Fin.succ_inj.mp h))]
            norm_num

theorem snfD_facts (sf : SNFOracle) {k : ℕ} (A : Mat (k + 2)) (N : ℤ)
    (hok : SNFOk sf A N) :
    (snfU sf A).det = 1 ∧ (snfV sf A).det = 1
    ∧ snfD sf A = Matrix.diagonal (snfa sf A)
    ∧ (snfD sf A).det = A.det := by
  obtain ⟨hU0, hV0, hD0eq, hD0diag, -⟩ := hok
  obtain ⟨eU, hUeq, hUdet⟩ := snfU_spec sf A hU0
  obtain ⟨eV, hVeq, hVdet⟩ := snfV_spec sf A hV0
  have hDform : snfD sf A
      = Matrix.diagonal eU * (sf (k + 2) A).1 * Matrix.diagonal eV := by
    rw [snfD, hUeq, hVeq, hD0eq]
    simp only [Matrix.mul_assoc]
  have hdiag : ∀ i j, i ≠ j → snfD sf A i j = 0 := by
    intro i j hij
    rw [hDform, Matrix.mul_diagonal, Matrix.diagonal_mul, hD0diag i j hij]
    ring
  refine ⟨hUdet, hVdet, ?_, ?_⟩
  · ext i j
    by_cases h : i = j
    · subst h
      rw [Matrix.diagonal_apply_eq]
      rfl
    · rw [Matrix.diagonal_apply_ne _ h]
      exact hdiag i j h
  · rw [snfD, Matrix.det_mul, Matrix.det_mul, hUdet, hVdet]
    ring

theorem five_cancel {G : Type} [Monoid G] (u w c x v u' w' x' v' d g : G)
    (hu : u' * u = 1) (hw : w' * w = 1) (hx : x * x' = 1) (hv : v * v' = 1)
    (hc : c = w * d * x) (hd : d = u * g * v) :
    u' * w' * c * x' * v' = g := by
  subst hc
  subst hd
  simp only [mul_assoc]
  rw [← mul_assoc x x' v', hx, one_mul]
  rw [← mul_assoc w' w, hw, one_mul]
  rw [hv, mul_one, ← mul_assoc, hu, one_mul]

theorem matrix_map_eq_iff {k : ℕ} (N : ℤ) (M1 M2 : Mat k) :
    M1.map (Int.cast : ℤ → ZMod N.natAbs) = M2.map (Int.cast : ℤ → ZMod N.natAbs)
      ↔ ∀ i j, M1 i j ≡ M2 i j [ZMOD N] := by
  rw [← Matrix.ext_iff]
  constructor
  · intro h i j
    have h1 := h i j
    rw [Matrix.map_apply, Matrix.map_apply] at h1
    rw [ZMod.intCast_eq_intCast_iff] at h1
    rw [Int.modEq_iff_dvd] at h1 ⊢
    rwa [Int.natAbs_dvd] at h1
  · intro h i j
    rw [Matrix.map_apply, Matrix.map_apply, ZMod.intCast_eq_intCast_iff]
    have h1 := h i j
    rw [Int.modEq_iff_dvd] at h1 ⊢
    rwa [Int.natAbs_dvd]

set_option maxHeartbeats 1000000 in
theorem lift_for_SL_spec (sf : SNFOracle) : ∀ {m : ℕ} (A : Mat m) (N : ℤ),
    SNFOk sf A N → A.det ≡ 1 [ZMOD N] →
    (lift_for_SL sf A N).det = 1
    ∧ ∀ i j, lift_for_SL sf A N i j ≡ A i j [ZMOD N] := by
  intro m
  induction m using Nat.twoStepInduction with
  | zero =>
    intro A N _ _
    exact ⟨Matrix.det_one, fun i _ => i.elim0⟩
  | one =>
    intro A N _ hdet
    refine ⟨Matrix.det_one, fun i j => ?_⟩
    have hiz : i = 0 := Subsingleton.elim i 0
    have hjz : j = 0 := Subsingleton.elim j 0
    subst hiz
    subst hjz
    rw [Matrix.det_fin_one] at hdet
    have h1 : (lift_for_SL sf A N) 0 0 = 1 := rfl
    rw [h1]
    exact hdet.symm
  | more k _ ih2 =>
    intro A N hok hdet
    have hokstep : ((sf (k + 2) A).2.1.det = 1 ∨ (sf (k + 2) A).2.1.det = -1)
        ∧ ((sf (k + 2) A).2.2.det = 1 ∨ (sf (k + 2) A).2.2.det = -1)
        ∧ (sf (k + 2) A).1 = (sf (k + 2) A).2.1 * A * (sf (k + 2) A).2.2
        ∧ (∀ i j, i ≠ j → (sf (k + 2) A).1 i j = 0)
        ∧ SNFOk sf (Cpmat (snfa sf A)) N := hok
    obtain ⟨hU0, hV0, hD0eq, hD0diag, hrec⟩ := hokstep
    obtain ⟨hUdet, hVdet, hDdiagonal, hDdet⟩ := snfD_facts sf A N hok
    have hprod : snfa sf A 0 * snfb sf A = (snfD sf A).det := by
    
      rw [hDdiagonal, Matrix.det_diagonal, Fin.prod_univ_succ]
      rfl
    have habN : snfa sf A 0 * snfb sf A ≡ 1 [ZMOD N] := by
      rw [hprod, hDdet]
      exact hdet
    have hdetCp : (Cpmat (snfa sf A)).det ≡ 1 [ZMOD N] := by
      rw [Cpmat_det]
      exact habN
    obtain ⟨hCdet, hCcong⟩ := ih2 (Cpmat (snfa sf A)) N hrec hdetCp
    have hR : lift_for_SL sf A N
        = uninv (snfU sf A) * uninv (Wmat k (snfb sf A))
          * Cppmat (snfa sf A 0) (lift_for_SL sf (Cpmat (snfa sf A)) N)
          * uninv (Xmat k (snfa sf A 1)) * uninv (snfV sf A) := rfl
    constructor
    · rw [hR, Matrix.det_mul, Matrix.det_mul, Matrix.det_mul, Matrix.det_mul]
      rw [det_uninv_one _ hUdet, det_uninv_one _ (Wmat_det k _), det_uninv_one _ (Xmat_det k _),
        det_uninv_one _ hVdet, Cppmat_det, hCdet]
      ring
    · rw [← matrix_map_eq_iff]
      have hCppMod : ∀ i j, Cppmat (snfa sf A 0) (lift_for_SL sf (Cpmat (snfa sf A)) N) i j
          ≡ (Wmat k (snfb sf A) * snfD sf A * Xmat k (snfa sf A 1)) i j [ZMOD N] := by
        rw [hDdiagonal]
        exact Cpp_modEq_WDX N (snfa sf A) (snfb sf A) _ habN hCcong
      have hmapCpp := (matrix_map_eq_iff N _ _).mpr hCppMod
      have hUU := (uninv_mul (snfU sf A) (Or.inl hUdet)).1
      have hWW := (uninv_mul (Wmat k (snfb sf A)) (Or.inl (Wmat_det k _))).1
      have hXX := (uninv_mul (Xmat k (snfa sf A 1)) (Or.inl (Xmat_det k _))).2
      have hVV := (uninv_mul (snfV sf A) (Or.inl hVdet)).2
      have hmap : ∀ M1 M2 : Mat (k + 2),
          (M1 * M2).map (Int.cast : ℤ → ZMod N.natAbs)
            = M1.map Int.cast * M2.map Int.cast := by
        intro M1 M2
        have := RingHom.map_mul ((Int.castRingHom (ZMod N.natAbs)).mapMatrix) M1 M2
        simpa [RingHom.mapMatrix_apply] using this
      have hmapone : ((1 : Mat (k + 2)).map (Int.cast : ℤ → ZMod N.natAbs)) = 1 := by
        have := RingHom.map_one
          ((Int.castRingHom (ZMod N.natAbs)).mapMatrix :
            Matrix (Fin (k + 2)) (Fin (k + 2)) ℤ →+* Matrix (Fin (k + 2)) (Fin (k + 2)) (ZMod N.natAbs))
        simpa [RingHom.mapMatrix_apply] using this
      rw [hR]
      rw [hmap, hmap, hmap, hmap]
      refine five_cancel
        ((snfU sf A).map Int.cast) ((Wmat k (snfb sf A)).map Int.cast) _
        ((Xmat k (snfa sf A 1)).map Int.cast) ((snfV sf A).map Int.cast)
        _ _ _ _ ((snfD sf A).map Int.cast) _ ?_ ?_ ?_ ?_ ?_ ?_
      · rw [← hmap, hUU, hmapone]
      · rw [← hmap, hWW, hmapone]
      · rw [← hmap, hXX, hmapone]
      · rw [← hmap, hVV, hmapone]
      · rw [hmapCpp, hmap, hmap]
      · rw [show snfD sf A = snfU sf A * A * snfV sf A from rfl, hmap, hmap]


/-- Fuel-indexed variant of `lift_for_SL`: each call consumes one unit of
fuel before doing anything, so the least sufficient fuel is exactly the
recursion depth. -/
def lift_for_SL_fuel (sf : SNFOracle) : ℕ → {m : ℕ} → Mat m → ℤ → Option (Mat m)
  | 0, _, _, _ => none
  | (_ + 1), 0, _, _ => some 1
  | (_ + 1), 1, _, _ => some 1
  | (fuel + 1), (k + 2), A, N =>
    (lift_for_SL_fuel sf fuel (Cpmat (snfa sf A)) N).map (fun C =>
      uninv (snfU sf A) * uninv (Wmat k (snfb sf A)) * Cppmat (snfa sf A 0) C
        * uninv (Xmat k (snfa sf A 1)) * uninv (snfV sf A))

/-- Trivial Smith-form oracle used to witness the `lift_for_SL` claims at
diagonal inputs: it returns `(A, 1, 1)`, which is a genuine Smith form
whenever `A` is already diagonal. -/
def sfTriv : SNFOracle := fun _ A => (A, 1, 1)

theorem sfTriv_ok : SNFOk sfTriv (1 : Mat 2) 7 := by
  refine ⟨Or.inl Matrix.det_one, Or.inl Matrix.det_one, by simp [sfTriv],
    fun i j h => Matrix.one_apply_ne h, trivial⟩

/-- C2: for every Smith-form oracle that is correct along the call tree
(modelling the external `smith_form` primitive) and every `n × n` integer
matrix `A` (`n ≥ 1`) with `det A ≡ 1 (mod N)`, `lift_for_SL(A, N)` has
determinant exactly 1 and is congruent to `A` entrywise mod `N`; in the base
case `n = 1` it returns the `1 × 1` identity matrix. -/
theorem claim_C2 (sf : SNFOracle) {m : ℕ} (A : Mat m) (N : ℤ) (hm : 1 ≤ m)
    (hsf : SNFOk sf A N) (hdet : A.det ≡ 1 [ZMOD N]) :
    (lift_for_SL sf A N).det = 1
    ∧ (∀ i j, lift_for_SL sf A N i j ≡ A i j [ZMOD N])
    ∧ (m = 1 → lift_for_SL sf A N = 1) := by
  obtain ⟨h1, h2⟩ := lift_for_SL_spec sf A N hsf hdet
  refine ⟨h1, h2, ?_⟩
  intro hm1
  subst hm1
  rfl

/-- Witness for C2 with the trivial oracle at the `2 × 2` identity, `N = 7`. -/
theorem claim_C2_witness :
    (lift_for_SL sfTriv (1 : Mat 2) 7).det = 1
    ∧ (∀ i j, lift_for_SL sfTriv (1 : Mat 2) 7 i j ≡ (1 : Mat 2) i j [ZMOD 7])
    ∧ ((2 : ℕ) = 1 → lift_for_SL sfTriv (1 : Mat 2) 7 = 1) :=
  claim_C2 sfTriv (1 : Mat 2) 7 (by norm_num) sfTriv_ok
    (by rw [Matrix.det_one])

/-- C9: `lift_for_SL` terminates with recursion depth exactly the matrix
dimension: the fuel-counting variant succeeds with `n` units of fuel,
agreeing with `lift_for_SL`, and fails with `n - 1` units, because each
recursive call is at dimension exactly one less and the recursion bottoms
out at dimension 1. -/
theorem claim_C9 (sf : SNFOracle) : ∀ {m : ℕ} (A : Mat m) (N : ℤ), 1 ≤ m →
    lift_for_SL_fuel sf m A N = some (lift_for_SL sf A N)
    ∧ lift_for_SL_fuel sf (m - 1) A N = none := by
  intro m
  induction m using Nat.twoStepInduction with
  | zero => intro A N h; omega
  | one => intro A N _; exact ⟨rfl, rfl⟩
  | more k _ ih2 =>
    intro A N _
    constructor
    · have h1 := (ih2 (Cpmat (snfa sf A)) N (by omega)).1
      have e : lift_for_SL_fuel sf (k + 2) A N
          = (lift_for_SL_fuel sf (k + 1) (Cpmat (snfa sf A)) N).map (fun C =>
              uninv (snfU sf A) * uninv (Wmat k (snfb sf A)) * Cppmat (snfa sf A 0) C
                * uninv (Xmat k (snfa sf A 1)) * uninv (snfV sf A)) := rfl
      rw [e, h1]
      rfl
    · have h2 := (ih2 (Cpmat (snfa sf A)) N (by omega)).2
      have e : lift_for_SL_fuel sf (k + 2 - 1) A N
          = (lift_for_SL_fuel sf k (Cpmat (snfa sf A)) N).map (fun C =>
              uninv (snfU sf A) * uninv (Wmat k (snfb sf A)) * Cppmat (snfa sf A 0) C
                * uninv (Xmat k (snfa sf A 1)) * uninv (snfV sf A)) := rfl
      rw [e]
      rw [show (k + 1 : ℕ) - 1 = k from rfl] at h2
      rw [h2]
      rfl

/-- Witness for C9 with the trivial oracle at the `1 × 1` identity, `N = 5`. -/
theorem claim_C9_witness :
    lift_for_SL_fuel sfTriv 1 (1 : Mat 1) 5 = some (lift_for_SL sfTriv (1 : Mat 1) 5)
    ∧ lift_for_SL_fuel sfTriv (1 - 1) (1 : Mat 1) 5 = none :=
  claim_C9 sfTriv (1 : Mat 1) 5 (by norm_num)

end Liftings

